import Mathlib

/-!
# Verification of the Resilient Retrieval & Recovery Engine

A shallow embedding, in Lean 4, of the core components of the
`eu-oils-bot-starter` repository, together with theorems settling the
frozen claims about its specification.

Embedded components and their sources:
* `PagerTracker`              — `tools/phase1/paging.py`
* `should_flip_to_archive`    — `tools/phase1/phase1_oilbot.py`
* the final dedup loop        — `tools/phase1/phase1_oilbot.py` (`run_one`)
* `maybe_promote`             — `tools/phase1/selector_wizard.py`
* `try_archives_for` etc.     — `src/eopt/archives.py`
* `NetGateway.get_text`       — `src/eopt/net_gateway.py`
* `summarize_archives` etc.   — `finder/core/cdx.py`

Python machine floats are modelled as rationals (`ℚ`), Python `int` as `ℤ`
or `ℕ`, Python sets/dicts as lists with explicit membership discipline, and
effectful code (file/network I/O, wall-clock time) as explicit state passing
with oracle functions standing for the outside world.  Ghost fields record
observable effects (which adapters were invoked, how many tokens were drawn)
so that "never calls X" properties are first-class.
-/

set_option maxHeartbeats 1000000

namespace EOPT

/-! ## Python string primitives

The embedded code leans on a handful of `str` methods.  They are modelled
here over `List Char` so that every definition evaluates by kernel
reduction.  `str.lower()` is modelled on the ASCII range (the only range
the repository's inputs exercise); `str.strip()` uses Python's ASCII
whitespace set. -/

/-- Python `str.lower()` on one character (ASCII range). -/
def lowerChar (c : Char) : Char :=
  if 65 ≤ c.toNat ∧ c.toNat ≤ 90 then Char.ofNat (c.toNat + 32) else c

/-- Python `str.lower()` character-wise. -/
def lowerChars (l : List Char) : List Char :=
  l.map lowerChar

/-- Python `str.lower()` on strings. -/
def pyLower (s : String) : String :=
  ⟨lowerChars s.data⟩

/-- A character stripped by Python `str.strip()`. -/
def isPySpace (c : Char) : Bool :=
  c = ' ' ∨ c = '\t' ∨ c = '\n' ∨ c = '\r' ∨ c = '\x0b' ∨ c = '\x0c'

/-- Python `str.strip()` on characters. -/
def trimChars (l : List Char) : List Char :=
  ((l.dropWhile isPySpace).reverse.dropWhile isPySpace).reverse

/-- Python `str.strip()` on strings. -/
def pyStrip (s : String) : String :=
  ⟨trimChars s.data⟩

/-- Python `str.split(sep)` for a one-character separator (empty pieces
kept, as in Python). -/
def splitOnChar (sep : Char) : List Char → List (List Char)
  | [] => [[]]
  | c :: rest =>
    let r := splitOnChar sep rest
    if c = sep then [] :: r
    else
      match r with
      | [] => [[c]]
      | g :: gs => (c :: g) :: gs

/-! ## PaginationTracker — `tools/phase1/paging.py`

`PagerTracker` keeps a set of seen product keys and a stall counter.
The Python `set` is modelled as a duplicate-free `List String`; only its
cardinality and membership are ever consulted.  `add_batch` skips falsy
(empty) keys, exactly like the source's `if k: self.seen.add(k)`. -/

structure PagerTracker where
  seen : List String
  stalls : Nat
  min_growth : Nat
  max_stalls : Nat
deriving Repr, DecidableEq

def PagerTracker.init (min_growth max_stalls : Nat) : PagerTracker :=
  ⟨[], 0, min_growth, max_stalls⟩

/-- One `self.seen.add(k)` step, guarded by the source's `if k:` truthiness
check (the empty string is falsy in Python). -/
def insertKey (seen : List String) (k : String) : List String :=
  if k = "" then seen else if k ∈ seen then seen else k :: seen

/-- `PagerTracker.add_batch`: returns the updated tracker and the boolean
result (`True` on growth ≥ `min_growth`, else `False` with a stall). -/
def PagerTracker.add_batch (t : PagerTracker) (product_keys : List String) :
    PagerTracker × Bool :=
  let before := t.seen.length
  let seen := product_keys.foldl insertKey t.seen
  let growth := seen.length - before
  if growth < t.min_growth then
    (⟨seen, t.stalls + 1, t.min_growth, t.max_stalls⟩, false)
  else
    (⟨seen, 0, t.min_growth, t.max_stalls⟩, true)

/-- `PagerTracker.should_stop`: `self.stalls >= self.max_stalls`. -/
def PagerTracker.should_stop (t : PagerTracker) : Bool :=
  t.max_stalls ≤ t.stalls

/-! ## BlockerClassifier — `should_flip_to_archive` in
`tools/phase1/phase1_oilbot.py`

The `health` dict is modelled by the three signals the function reads:
`auth_redirect` and `cf_detected` (truthy flags) and `why_flip`
(an optional string; `health.get("why_flip")` returns `None` when absent,
and `None == "cookie_wall"` is `False` in Python). -/

structure Health where
  auth_redirect : Bool
  cf_detected : Bool
  why_flip : Option String
deriving Repr, DecidableEq

def should_flip_to_archive (health : Health) (card_count jsonld_count : Nat) :
    Option String :=
  if health.auth_redirect then some "auth_redirect"
  else if health.cf_detected then some "cf_challenge"
  else if health.why_flip = some "cookie_wall" ∧ card_count = 0 ∧ jsonld_count = 0 then
    some "cookie_wall"
  else if health.why_flip = some "store_context_failed" then some "store_context_failed"
  else if card_count < 5 ∧ jsonld_count = 0 then some "too_few_cards"
  else none

/-! ## ResultDeduper — the final dedup loop of `run_one` in
`tools/phase1/phase1_oilbot.py`

```
seen = set()
uniq = []
for r in all_rows:
    k = _product_key(r.product_name, r.quantity or "", r.source_url, r.price_eur)
    if k in seen: continue
    seen.add(k); uniq.append(r)
```

`Row` carries exactly the fields the loop reads.  `_product_key` feeds a
canonical `name|qty|url|price` string into SHA-1; the hash step is kept
abstract (the dedup theorems are proved for every key function, which
covers SHA-1 composed with the canonical string), while the canonical
string itself is embedded below as `productKeyBase`. -/

structure Row where
  product_name : String
  quantity : Option String
  source_url : String
  price_eur : Option ℚ
deriving Repr, DecidableEq

/-- Python `s.strip().lower()`. -/
def pyStripLower (s : String) : String := ⟨lowerChars (trimChars s.data)⟩

/-- The canonical string hashed by `_product_key`:
`f"{name.strip().lower()}|{(qty or '').strip().lower()}|{(url or '').strip().lower()}|{'' if price is None else price}"`. -/
def productKeyBase (name qty url : String) (price : Option ℚ) : String :=
  pyStripLower name ++ "|" ++ pyStripLower qty ++ "|" ++ pyStripLower url ++ "|" ++
    (match price with
     | none => ""
     | some p => toString p)

/-- The key actually computed for a row in `run_one`
(`_product_key(r.product_name, r.quantity or "", r.source_url, r.price_eur)`),
up to the final SHA-1 hex digest. -/
def rowKeyBase (r : Row) : String :=
  productKeyBase r.product_name (r.quantity.getD "") r.source_url r.price_eur

/-- The dedup loop, with the accumulated `seen` set explicit. -/
def dedupeAux (key : Row → String) : List Row → List String → List Row
  | [], _ => []
  | r :: rs, seen =>
    if key r ∈ seen then dedupeAux key rs seen
    else r :: dedupeAux key rs (key r :: seen)

def dedupe (key : Row → String) (rows : List Row) : List Row :=
  dedupeAux key rows []

/-! ## SelectorPolicy — `tools/phase1/selector_wizard.py`

`maybe_promote` loads the per-site policy JSON, rebuilds the candidate
registry, applies the margin/gates/consecutive-wins rule and persists the
result.  The persisted JSON is modelled as `Policy` (the `"selectors"`
object: active id and a candidate registry), passed in and returned
explicitly in place of the `_load_policy`/`_save_policy` file round trip.
The registry is a Python dict keyed by candidate id: an insertion-ordered
association list with in-place update.  Scores are rationals standing for
Python floats. -/

structure Candidate where
  id : String
  css : String
  last_score : ℚ
  wins_in_a_row : Nat
deriving Repr, DecidableEq

structure EvalMetrics where
  cards : ℤ
  price_ok_rate : ℚ
  qty_ok_rate : ℚ
  dup_rate : ℚ
deriving Repr, DecidableEq

def PROMOTE_MARGIN : ℚ := 5 / 100

def REQUIRED_WINS : Nat := 2

def shadow_score (m : EvalMetrics) : ℚ :=
  1 / 2 * m.price_ok_rate + 1 / 2 * m.qty_ok_rate

def gatesPass (m : EvalMetrics) : Bool :=
  5 ≤ m.cards ∧ 70 / 100 ≤ m.price_ok_rate ∧ 50 / 100 ≤ m.qty_ok_rate ∧
    m.dup_rate ≤ 20 / 100

/-- One entry of the candidates registry: `{"css": ..., "wins": ...}`. -/
structure CandEntry where
  css : String
  wins : Nat
deriving Repr, DecidableEq

/-- The registry dict `policy["selectors"]["candidates"]`. -/
abbrev Registry := List (String × CandEntry)

/-- Python dict assignment `d[k] = v`: update in place if the key exists
(keeping its position), else append. -/
def dictSet (d : Registry) (k : String) (v : CandEntry) : Registry :=
  if d.any (fun p => p.1 = k) then
    d.map (fun p => if p.1 = k then (k, v) else p)
  else d ++ [(k, v)]

/-- Python dict lookup `d.get(k)`. -/
def dictGet (d : Registry) (k : String) : Option CandEntry :=
  (d.find? (fun p => p.1 = k)).map (fun p => p.2)

/-- `policy["selectors"]["candidates"][k]["wins"] = w` (the key is present
whenever the source performs this assignment). -/
def dictSetWins (d : Registry) (k : String) (w : Nat) : Registry :=
  d.map (fun p => if p.1 = k then (p.1, ⟨p.2.css, w⟩) else p)

/-- The persisted `"selectors"` object of `policy/<code>.json`. -/
structure Policy where
  active : Option String
  candidates : Registry
deriving Repr, DecidableEq

/-- A freshly loaded policy when the file does not exist:
`{"selectors": {"active": None, "candidates": []}}`. -/
def Policy.fresh : Policy := ⟨none, []⟩

/-- What `maybe_promote` returns and persists; `promoted` is the flag the
source writes into the `selectors_explained.json` audit record. -/
structure PromoteOutcome where
  winner : Candidate
  promoted : Bool
  policy : Policy
deriving Repr, DecidableEq

/-- The best-challenger scan of `maybe_promote`:
`best = None; best_score = base_score;` then for each challenger with
metrics, `if s > best_score and (s - base_score) >= PROMOTE_MARGIN and
_gates_pass(m): best, best_score = c, s`. -/
def bestChallenger (base_score : ℚ) (challengers : List Candidate)
    (challenger_metrics : List (String × EvalMetrics)) : Option Candidate × ℚ :=
  challengers.foldl
    (fun acc c =>
      match (challenger_metrics.find? (fun p => p.1 = c.id)).map (fun p => p.2) with
      | none => acc
      | some m =>
        let s := shadow_score m
        if acc.2 < s ∧ PROMOTE_MARGIN ≤ s - base_score ∧ gatesPass m then (some c, s)
        else acc)
    (none, base_score)

/-- `maybe_promote(code, run_dir, baseline, challengers, baseline_metrics,
challenger_metrics)`.  `policy0` is the state `_load_policy` reads from disk;
the returned `policy` is what `_save_policy` writes back.  Note the source
rebuilds the registry from scratch with `"wins": 0` for every candidate
before applying the consecutive-win rule. -/
def maybe_promote (policy0 : Policy) (baseline : Candidate)
    (challengers : List Candidate) (baseline_metrics : EvalMetrics)
    (challenger_metrics : List (String × EvalMetrics)) : PromoteOutcome :=
  let reg : Registry :=
    challengers.foldl (fun d c => dictSet d c.id ⟨c.css, 0⟩)
      [(baseline.id, ⟨baseline.css, 0⟩)]
  let base_score := shadow_score baseline_metrics
  match (bestChallenger base_score challengers challenger_metrics).1 with
  | some best =>
    let wins := (((dictGet reg best.id).map (fun e => e.wins)).getD 0) + 1
    let reg1 := dictSetWins reg best.id wins
    if REQUIRED_WINS ≤ wins then
      let reg2 := reg1.map (fun p => if p.1 ≠ best.id then (p.1, ⟨p.2.css, 0⟩) else p)
      ⟨best, true, ⟨some best.id, reg2⟩⟩
    else
      ⟨baseline, false, ⟨policy0.active, reg1⟩⟩
  | none =>
    let reg2 := reg.map (fun p => if p.1 ≠ baseline.id then (p.1, ⟨p.2.css, 0⟩) else p)
    ⟨baseline, false, ⟨some baseline.id, reg2⟩⟩

/-! ## ArchiveLadder — `src/eopt/archives.py`

`ArchiveResult` mirrors the dataclass.  Provider adapters are abstracted as
an oracle `fetch : String → ArchiveResult` mapping a provider name to the
result of `FETCHERS[name](target_url, timeout)` for the fixed target URL and
timeout of one `try_archives_for` call.  A ghost `invoked` log records, in
order, the provider names whose adapter was actually called (the source
calls `fn` exactly once per loop iteration, appending one attempt). -/

structure ArchiveResult where
  ok : Bool
  source : String
  url : String
  status : ℤ
  html : Option String
  reason : String
deriving Repr, DecidableEq

/-- The keys of the `FETCHERS` dict. -/
def FETCHERS_keys : List String :=
  ["wayback", "archivetoday", "ghost", "memento", "arquivo", "ukwa", "perma"]

def DEFAULT_PRIORITY : List String :=
  ["wayback", "ghost", "memento", "arquivo", "ukwa", "archivetoday", "perma"]

/-- One row of `retailers.csv`, with the raw string fields the source reads. -/
structure RetailerRow where
  code : String
  retailer : String
  archive_priority : String
  prefer_archive : String
deriving Repr, DecidableEq

/-- `[p.strip().lower() for p in raw.split(",") if p.strip()]`. -/
def parsePriority (raw : String) : List String :=
  (((splitOnChar ',' raw.data).filter (fun p => trimChars p ≠ [])).map
    (fun p => (⟨lowerChars (trimChars p)⟩ : String)))

/-- The CSV row scan of `read_retailer_archive_overrides`: first row whose
stripped `code` or `retailer` column equals the site code. -/
def findRow (rows : List RetailerRow) (code : String) : Option RetailerRow :=
  rows.find? (fun row => pyStrip row.code = code ∨ pyStrip row.retailer = code)

/-- `read_retailer_archive_overrides(code)`; `rows` models the parsed
`retailers.csv` content and `global_priority` the
`selectors.json → archives.global_priority` fallback (itself defaulting to
`DEFAULT_PRIORITY`). -/
def read_retailer_archive_overrides (rows : List RetailerRow)
    (global_priority : List String) (code : String) : List String × Bool :=
  let pri : Option (List String) :=
    match findRow rows code with
    | some row =>
      let raw := pyStrip row.archive_priority
      if raw ≠ "" then some (parsePriority raw) else none
    | none => none
  let prefer : Bool :=
    match findRow rows code with
    | some row => pyLower (pyStrip row.prefer_archive) = "true"
    | none => false
  (pri.getD global_priority, prefer)

/-- The in-loop de-dup of `try_archives_for`:
`[p for p in order if p in FETCHERS and (p not in seen and not seen.add(p))]`
— keep known providers, first occurrence only. -/
def dedupKnown : List String → List String → List String
  | [], _ => []
  | p :: ps, seen =>
    if p ∈ FETCHERS_keys ∧ p ∉ seen then p :: dedupKnown ps (p :: seen)
    else dedupKnown ps seen

/-- The effective provider order computed by `try_archives_for`:
`order = [p.lower() for p in (priority or pri_csv or DEFAULT_PRIORITY)]`
then capped to known providers with first occurrence winning. -/
def effectiveOrder (priority : Option (List String)) (pri_csv : List String) :
    List String :=
  let base :=
    match priority with
    | some l => if l ≠ [] then l else if pri_csv ≠ [] then pri_csv else DEFAULT_PRIORITY
    | none => if pri_csv ≠ [] then pri_csv else DEFAULT_PRIORITY
  dedupKnown (base.map pyLower) []

/-- The outcome of one `try_archives_for` call: the returned pair plus the
ghost log of adapters invoked. -/
structure LadderOutcome where
  best : Option ArchiveResult
  attempts : List ArchiveResult
  invoked : List String
deriving Repr, DecidableEq

/-- The provider loop: call the adapter, append the attempt, stop at the
first result with `res.ok and (res.html or "").strip()`. -/
def ladderLoop (fetch : String → ArchiveResult) :
    List String → List ArchiveResult → List String → LadderOutcome
  | [], attempts, invoked => ⟨none, attempts, invoked⟩
  | name :: rest, attempts, invoked =>
    let res := fetch name
    if res.ok = true ∧ trimChars ((res.html.getD "").data) ≠ [] then
      ⟨some res, attempts ++ [res], invoked ++ [name]⟩
    else ladderLoop fetch rest (attempts ++ [res]) (invoked ++ [name])

/-- `try_archives_for(code, target_url, priority=…, limit=…)` for a fixed
target URL and timeout (absorbed into `fetch`).  The source also computes
`prefer = bool(prefer_archive if prefer_archive is not None else prefer_csv)`
but never uses it afterwards; it is reproduced here for fidelity and
likewise unused.  The loop runs over `order[: max(1, limit)]`. -/
def try_archives_for (fetch : String → ArchiveResult)
    (priority : Option (List String)) (rows : List RetailerRow)
    (global_priority : List String) (code : String) (limit : Nat) :
    LadderOutcome :=
  let csv := read_retailer_archive_overrides rows global_priority code
  let order := effectiveOrder priority csv.1
  let _prefer : Bool := csv.2
  ladderLoop fetch (order.take (max 1 limit)) [] []

/-! ## RateLimitedGateway — `src/eopt/net_gateway.py`

`get_text` first consults the robots policy, then loops within the wall
clock budget: each iteration either draws a token and performs one HTTP GET,
or sleeps.  Wall-clock time and the token bucket's refill are modelled by a
schedule `sched : List Bool` — one entry per `while` iteration, recording
whether `self.bucket.take()` succeeded on that iteration; an exhausted
schedule is an exhausted budget.  The HTTP client is an oracle indexed by
request count, returning either a response or a transport error name
(`httpx.HTTPError`).  Ghost counters record the number of requests made to
the target URL and the number of rate-limit tokens drawn. -/

structure GatewayPolicy where
  user_agent : String
  rps : ℚ
  burst : Nat
  timeout_s : ℚ
  budget_s : ℚ
  respect_robots : Bool
deriving Repr, DecidableEq

structure HttpResponse where
  status : ℤ
  text : String
deriving Repr, DecidableEq

/-- The returned `(content, meta)` pair plus the ghost effect counters. -/
structure GetTextResult where
  content : Option String
  ok : Bool
  status : Option ℤ
  why : Option String
  requests_made : Nat
  tokens_drawn : Nat
deriving Repr, DecidableEq

/-- `NetGateway._robots_allowed`: `True` when `respect_robots` is off,
otherwise the cached per-origin parser's `can_fetch(user_agent, url)`,
modelled by the oracle `robots`. -/
def robotsAllowed (p : GatewayPolicy) (robots : String → Bool) (url : String) :
    Bool :=
  if p.respect_robots = false then true else robots url

/-- The `while time.monotonic() - start < bud:` loop of `get_text`.
`n` counts requests so far (also the index into the client oracle and the
tokens drawn, as each successful take performs exactly one request). -/
def getTextLoop (client : Nat → Except String HttpResponse) :
    List Bool → Nat → Option String → Option ℤ → GetTextResult
  | [], n, why, status =>
    ⟨none, false, status, some (why.getD "budget_exhausted"), n, n⟩
  | take :: sched, n, why, status =>
    if take then
      match client n with
      | Except.error e =>
        getTextLoop client sched (n + 1) (some ("http_error:" ++ e)) status
      | Except.ok r =>
        if r.status = 200 then ⟨some r.text, true, some 200, why, n + 1, n + 1⟩
        else if r.status = 403 ∨ r.status = 429 then
          ⟨none, false, some r.status, some ("http_" ++ toString r.status), n + 1, n + 1⟩
        else getTextLoop client sched (n + 1) why (some r.status)
    else getTextLoop client sched n why status

/-- `NetGateway.get_text(url, budget_s=…)`. -/
def get_text (p : GatewayPolicy) (robots : String → Bool)
    (client : Nat → Except String HttpResponse) (sched : List Bool)
    (url : String) : GetTextResult :=
  if robotsAllowed p robots url = false then
    ⟨none, false, none, some "robots_disallow", 0, 0⟩
  else getTextLoop client sched 0 none none

/-! ## URL normalization — CPython `urllib.parse` as used by
`finder/core/cdx.py` and `src/eopt/archives.py`

`_strip_query_and_fragment` and `_parent_urls` are built on
`urlsplit`/`urlunsplit`.  Those stdlib functions are embedded below over
`List Char` following CPython 3.11 (`Lib/urllib/parse.py`): WHATWG leading
C0-control/space stripping, tab/CR/LF removal, scheme extraction and
lowercasing, netloc extraction after `//` up to the first of `/?#`,
fragment split before query split.  `str.lower()` is modelled by the ASCII
`Char.toLower` map.  The `ValueError` branches for malformed bracketed
hosts and NFKC-unsafe non-ASCII netlocs are not modelled: they concern
inputs on which the repository functions raise rather than return. -/

def isAsciiAlphaB (c : Char) : Bool :=
  ('a' ≤ c ∧ c ≤ 'z') ∨ ('A' ≤ c ∧ c ≤ 'Z')

/-- Membership in CPython's `scheme_chars`. -/
def isSchemeChar (c : Char) : Bool :=
  isAsciiAlphaB c ∨ ('0' ≤ c ∧ c ≤ '9') ∨ c = '+' ∨ c = '-' ∨ c = '.'

/-- A character removed everywhere by `urlsplit`
(`_UNSAFE_URL_BYTES_TO_REMOVE`). -/
def isTabCrLf (c : Char) : Bool :=
  c = '\t' ∨ c = '\r' ∨ c = '\n'

/-- Not one of the netloc delimiters `/?#`. -/
def notDelim (c : Char) : Bool :=
  ¬(c = '/' ∨ c = '?' ∨ c = '#')

/-- `url.lstrip(_WHATWG_C0_CONTROL_OR_SPACE)`. -/
def lstripC0 (l : List Char) : List Char :=
  l.dropWhile (fun c => c.toNat ≤ 32)

/-- Removal of `\t`, `\r`, `\n` everywhere. -/
def removeTabCrLf (l : List Char) : List Char :=
  l.filter (fun c => isTabCrLf c = false)

/-- The five `urlsplit` components, as character lists. -/
structure SplitChars where
  scheme : List Char
  netloc : List Char
  path : List Char
  query : List Char
  fragment : List Char
deriving Repr, DecidableEq

/-- The scheme step of `urlsplit`: `i = url.find(':')`; if `i > 0`, the
first character is an ASCII letter and everything before the colon is in
`scheme_chars`, the scheme is that prefix lowercased and the remainder
follows the colon; otherwise no scheme. -/
def splitScheme (url : List Char) : List Char × List Char :=
  let pre := url.takeWhile (fun c => c ≠ ':')
  if (':' ∈ url) ∧ pre ≠ [] ∧ isAsciiAlphaB (pre.headD ' ') ∧ pre.all isSchemeChar
  then (lowerChars pre, (url.dropWhile (fun c => c ≠ ':')).tail)
  else ([], url)

/-- The netloc step of `urlsplit`: when `url[:2] == '//'`, `_splitnetloc`
takes everything from index 2 up to the first of `/?#`. -/
def splitNetloc (url : List Char) : List Char × List Char :=
  if url.take 2 = ['/', '/'] then
    ((url.drop 2).takeWhile notDelim, (url.drop 2).dropWhile notDelim)
  else ([], url)

/-- The fragment step: `url.split('#', 1)` when a `'#'` occurs.  Returns
`(remaining, fragment)`. -/
def splitFragment (url : List Char) : List Char × List Char :=
  if '#' ∈ url then
    (url.takeWhile (fun c => c ≠ '#'), (url.dropWhile (fun c => c ≠ '#')).tail)
  else (url, [])

/-- The query step: `url.split('?', 1)` when a `'?'` occurs.  Returns
`(remaining, query)`. -/
def splitQuery (url : List Char) : List Char × List Char :=
  if '?' ∈ url then
    (url.takeWhile (fun c => c ≠ '?'), (url.dropWhile (fun c => c ≠ '?')).tail)
  else (url, [])

/-- CPython `urlsplit(url)` (default `scheme=''`, `allow_fragments=True`). -/
def pySplitChars (l : List Char) : SplitChars :=
  let url0 := removeTabCrLf (lstripC0 l)
  let s := splitScheme url0
  let n := splitNetloc s.2
  let f := splitFragment n.2
  let q := splitQuery f.1
  ⟨s.1, n.1, q.1, q.2, f.2⟩

/-- CPython's `uses_netloc` scheme list. -/
def uses_netloc : List String :=
  ["", "ftp", "http", "gopher", "nntp", "telnet", "imap", "wais", "file",
   "mms", "https", "shttp", "snews", "prospero", "rtsp", "rtsps", "rtspu",
   "rsync", "svn", "svn+ssh", "sftp", "nfs", "git", "git+ssh", "ws", "wss"]

def usesNetlocChars : List (List Char) :=
  uses_netloc.map String.data

/-- CPython `urlunsplit((scheme, netloc, path, query, fragment))`. -/
def pyUnsplitChars (scheme netloc path query fragment : List Char) : List Char :=
  let url := path
  let url :=
    if netloc ≠ [] ∨ (scheme ≠ [] ∧ scheme ∈ usesNetlocChars ∧ url.take 2 ≠ ['/', '/'])
    then
      '/' :: '/' :: (netloc ++ (if url ≠ [] ∧ url.take 1 ≠ ['/'] then '/' :: url else url))
    else url
  let url := if scheme ≠ [] then scheme ++ ':' :: url else url
  let url := if query ≠ [] then url ++ '?' :: query else url
  if fragment ≠ [] then url ++ '#' :: fragment else url

/-- `finder/core/cdx.py` `_strip_query_and_fragment`, on characters:
`urlunsplit((sp.scheme, sp.netloc.lower(), sp.path, "", ""))`. -/
def stripQFChars (l : List Char) : List Char :=
  let sp := pySplitChars l
  pyUnsplitChars sp.scheme (lowerChars sp.netloc) sp.path [] []

def _strip_query_and_fragment (url : String) : String :=
  ⟨stripQFChars url.data⟩

/-- `src/eopt/archives.py` `_clean_target`. -/
def _clean_target (url : String) : String :=
  if "http://".data.isPrefixOf url.data ∨ "https://".data.isPrefixOf url.data then url
  else ⟨"https://".data ++ url.data.dropWhile (fun c => c = '/')⟩

/-! ## StabilitySampler — `finder/core/cdx.py` -/

/-- `'/'.join(groups)`. -/
def joinSlash : List (List Char) → List Char
  | [] => []
  | [g] => g
  | g :: gs => g ++ '/' :: joinSlash gs

/-- `_parent_urls(url)`: the exact URL, each parent path, then the site
root, as the generator yields them (`i = len(segs) … 0`). -/
def _parent_urls (url : String) : List String :=
  let sp := pySplitChars (stripQFChars url.data)
  let segs := (splitOnChar '/' sp.path).filter (fun s => s ≠ [])
  ((List.range (segs.length + 1)).reverse).map (fun i =>
    let p := if i ≠ 0 then '/' :: joinSlash (segs.take i) else ['/']
    let scheme := if sp.scheme ≠ [] then sp.scheme else "https".data
    ⟨pyUnsplitChars scheme sp.netloc p [] []⟩)

/-- The dict returned by `summarize_archives`. -/
structure ArchSummary where
  wayback_hits : Nat
  wayback_months : Nat
  arquivo_hits : Nat
  arquivo_months : Nat
  months_with_snapshots : Nat
  total_hits : Nat
deriving Repr, DecidableEq

/-- The per-level counts the source assembles from one candidate URL. -/
def levelSummary (wayback arquivo : String → Nat × Nat) (c : String) :
    ArchSummary :=
  ⟨(wayback c).1, (wayback c).2, (arquivo c).1, (arquivo c).2,
   max (wayback c).2 (arquivo c).2, (wayback c).1 + (arquivo c).1⟩

/-- The `for candidate in _parent_urls(url)` loop of `summarize_archives`:
stop at the first level with `months > 0 or hits > 0`. -/
def summarizeGo (wayback arquivo : String → Nat × Nat) :
    List String → ArchSummary
  | [] => ⟨0, 0, 0, 0, 0, 0⟩
  | c :: rest =>
    let s := levelSummary wayback arquivo c
    if 0 < s.months_with_snapshots ∨ 0 < s.total_hits then s
    else summarizeGo wayback arquivo rest

/-- `summarize_archives(url, start_year)`; `wayback`/`arquivo` are the
`wayback_cdx`/`arquivo_cdx` oracles returning
`(total_hits, months_with_snapshots)` for a candidate URL (the fixed
`start_year` is absorbed into them). -/
def summarize_archives (wayback arquivo : String → Nat × Nat) (url : String) :
    ArchSummary :=
  summarizeGo wayback arquivo (_parent_urls url)

/-! ## Supporting lemmas -/

theorem insertKey_eq_self {seen : List String} {k : String}
    (h : k = "" ∨ k ∈ seen) : insertKey seen k = seen := by
  unfold insertKey
  rcases h with h | h
  · simp [h]
  · simp [h]

theorem length_insertKey_of_new {seen : List String} {k : String}
    (h1 : k ≠ "") (h2 : k ∉ seen) :
    (insertKey seen k).length = seen.length + 1 := by
  unfold insertKey
  simp [h1, h2]

theorem le_length_foldl_insertKey :
    ∀ (keys : List String) (seen : List String),
      seen.length ≤ (keys.foldl insertKey seen).length := by
  intro keys
  induction keys with
  | nil => intro seen; simp
  | cons k ks ih =>
    intro seen
    refine le_trans ?_ (ih (insertKey seen k))
    unfold insertKey
    split_ifs <;> simp

theorem foldl_insertKey_length_eq_iff :
    ∀ (keys : List String) (seen : List String),
      (keys.foldl insertKey seen).length = seen.length ↔
        ∀ k ∈ keys, k = "" ∨ k ∈ seen := by
  intro keys
  induction keys with
  | nil => intro seen; simp
  | cons k ks ih =>
    intro seen
    by_cases h : k = "" ∨ k ∈ seen
    · rw [List.foldl_cons, insertKey_eq_self h, ih]
      simp [List.forall_mem_cons, h]
    · push_neg at h
      rw [List.foldl_cons]
      have hl := length_insertKey_of_new h.1 h.2
      have hle := le_length_foldl_insertKey ks (insertKey seen k)
      rw [hl] at hle
      constructor
      · intro heq
        omega
      · intro hall
        rcases hall k (List.mem_cons_self k ks) with h' | h'
        · exact absurd h' h.1
        · exact absurd h' h.2

/-! ## The claims -/

/-- **C6.** For a `PagerTracker` with `min_growth = 1` and `max_stalls = 1`:
`add_batch` returns `True` and zeroes the stall counter exactly when the
batch contributes at least one fingerprint not already seen, and returns
`False` and increments the stall counter otherwise; `should_stop` holds
exactly when the stall counter has reached `max_stalls`; feeding batches
contributing 10, 0 and 5 new fingerprints makes `should_stop` true after
the second batch. -/
theorem C6_pager_tracker :
    (∀ (t : PagerTracker) (keys : List String), t.min_growth = 1 →
      ((((t.add_batch keys).2 = true ∧ (t.add_batch keys).1.stalls = 0) ↔
          ∃ k ∈ keys, k ≠ "" ∧ k ∉ t.seen)
        ∧ (((t.add_batch keys).2 = false ∧
              (t.add_batch keys).1.stalls = t.stalls + 1) ↔
            ¬∃ k ∈ keys, k ≠ "" ∧ k ∉ t.seen)))
    ∧ (∀ t : PagerTracker, t.should_stop = true ↔ t.max_stalls ≤ t.stalls)
    ∧ ((((PagerTracker.init 1 1).add_batch
          ["a1", "a2", "a3", "a4", "a5", "a6", "a7", "a8", "a9", "a10"]).1.add_batch
            ["a1"]).1.should_stop = true
        ∧ (((PagerTracker.init 1 1).add_batch
            ["a1", "a2", "a3", "a4", "a5", "a6", "a7", "a8", "a9", "a10"]).2 = true
        ∧ ((((PagerTracker.init 1 1).add_batch
            ["a1", "a2", "a3", "a4", "a5", "a6", "a7", "a8", "a9", "a10"]).1.add_batch
              ["a1"]).2 = false))) := by
  refine ⟨?_, ?_, by decide⟩
  · intro t keys hmin
    have hle := le_length_foldl_insertKey keys t.seen
    have hiff := foldl_insertKey_length_eq_iff keys t.seen
    unfold PagerTracker.add_batch
    rw [hmin]
    by_cases h : (keys.foldl insertKey t.seen).length = t.seen.length
    · have hlt : (keys.foldl insertKey t.seen).length - t.seen.length < 1 := by omega
      rw [if_pos hlt]
      constructor
      · simp only [false_and]
        constructor
        · intro hfalse
          exact absurd hfalse.1 (by simp)
        · intro hex
          exfalso
          rcases hex with ⟨k, hk, hne, hnm⟩
          rcases hiff.mp h k hk with h' | h'
          · exact hne h'
          · exact hnm h'
      · simp only [true_and]
        constructor
        · intro _
          intro hex
          rcases hex with ⟨k, hk, hne, hnm⟩
          rcases hiff.mp h k hk with h' | h'
          · exact hne h'
          · exact hnm h'
        · intro _
          trivial
    · have hlt : ¬((keys.foldl insertKey t.seen).length - t.seen.length < 1) := by omega
      rw [if_neg hlt]
      constructor
      · simp only [true_and]
        constructor
        · intro _
          by_contra hnex
          push_neg at hnex
          apply h
          rw [hiff]
          intro k hk
          by_cases hke : k = ""
          · exact Or.inl hke
          · exact Or.inr (hnex k hk hke)
        · intro _
          trivial
      · simp only [false_and]
        constructor
        · intro hfalse
          exact absurd hfalse.1 (by simp)
        · intro hnex
          exfalso
          apply h
          rw [hiff]
          intro k hk
          by_cases hke : k = ""
          · exact Or.inl hke
          · by_cases hkm : k ∈ t.seen
            · exact Or.inr hkm
            · exact absurd ⟨k, hk, hke, hkm⟩ hnex
  · intro t
    unfold PagerTracker.should_stop
    simp

/-- Witness for C6 at a concrete tracker and batch. -/
theorem C6_pager_tracker_witness :
    ((PagerTracker.init 1 1).add_batch ["x"]).2 = true ∧
      ((PagerTracker.init 1 1).add_batch ["x"]).1.stalls = 0 := by
  have h := (C6_pager_tracker.1 (PagerTracker.init 1 1) ["x"] rfl).1.mpr
    ⟨"x", by decide, by decide, by decide⟩
  exact h

/-- **C5.** `should_flip_to_archive` is a first-match-wins priority
cascade: auth-redirect beats every other signal (including a simultaneous
cookie-wall), then the challenge signal, then cookie-wall (which also
requires zero cards and zero structured products), then store-context
failure, then the below-threshold empty render, else no verdict. -/
theorem C5_blocker_priority :
    ∀ (h : Health) (card jsonld : Nat),
      (h.auth_redirect = true →
        should_flip_to_archive h card jsonld = some "auth_redirect")
      ∧ (h.auth_redirect = false → h.cf_detected = true →
          should_flip_to_archive h card jsonld = some "cf_challenge")
      ∧ (should_flip_to_archive h card jsonld = some "cookie_wall" ↔
          h.auth_redirect = false ∧ h.cf_detected = false ∧
            h.why_flip = some "cookie_wall" ∧ card = 0 ∧ jsonld = 0)
      ∧ (h.auth_redirect = false → h.cf_detected = false →
          ¬(h.why_flip = some "cookie_wall" ∧ card = 0 ∧ jsonld = 0) →
          h.why_flip = some "store_context_failed" →
          should_flip_to_archive h card jsonld = some "store_context_failed")
      ∧ (h.auth_redirect = false → h.cf_detected = false →
          ¬(h.why_flip = some "cookie_wall" ∧ card = 0 ∧ jsonld = 0) →
          h.why_flip ≠ some "store_context_failed" →
          card < 5 → jsonld = 0 →
          should_flip_to_archive h card jsonld = some "too_few_cards")
      ∧ (h.auth_redirect = false → h.cf_detected = false →
          ¬(h.why_flip = some "cookie_wall" ∧ card = 0 ∧ jsonld = 0) →
          h.why_flip ≠ some "store_context_failed" →
          ¬(card < 5 ∧ jsonld = 0) →
          should_flip_to_archive h card jsonld = none) := by
  intro h card jsonld
  refine ⟨?_, ?_, ?_, ?_, ?_, ?_⟩
  · intro h1
    simp [should_flip_to_archive, h1]
  · intro h1 h2
    simp [should_flip_to_archive, h1, h2]
  · unfold should_flip_to_archive
    split_ifs with ha hc hw hs hf
    · simp [ha]
    · constructor
      · intro habs
        exfalso
        exact absurd (Option.some.inj habs) (by decide)
      · intro hall
        exact absurd hc (by simp [hall.2.1])
    · constructor
      · intro _
        simp_all
      · intro _
        rfl
    · constructor
      · intro habs
        exfalso
        exact absurd (Option.some.inj habs) (by decide)
      · intro hall
        exact absurd hw (by simp [hall.2.2])
    · constructor
      · intro habs
        exfalso
        exact absurd (Option.some.inj habs) (by decide)
      · intro hall
        exact absurd hw (by simp [hall.2.2])
    · constructor
      · intro habs
        exact absurd habs (by simp)
      · intro hall
        exact absurd hw (by simp [hall.2.2])
  · intro h1 h2 h3 h4
    simp only [should_flip_to_archive, h1, h2, h4]
    simp [h3]
  · intro h1 h2 h3 h4 h5 h6
    simp only [should_flip_to_archive, h1, h2, h4]
    simp [h3, h4, h5, h6]
    intro hw hc
    exact h3 ⟨hw, hc, h6⟩
  · intro h1 h2 h3 h4 h5
    simp only [should_flip_to_archive, h1, h2]
    simp [h3, h4, h5]

/-- Witness for C5: simultaneous auth-redirect and cookie-wall signals
classify as the auth redirect. -/
theorem C5_blocker_priority_witness :
    should_flip_to_archive ⟨true, true, some "cookie_wall"⟩ 0 0 =
      some "auth_redirect" :=
  (C5_blocker_priority ⟨true, true, some "cookie_wall"⟩ 0 0).1 rfl

theorem dedupeAux_sublist (key : Row → String) :
    ∀ (rows : List Row) (seen : List String),
      (dedupeAux key rows seen).Sublist rows := by
  intro rows
  induction rows with
  | nil => intro seen; simp [dedupeAux]
  | cons r rs ih =>
    intro seen
    unfold dedupeAux
    by_cases h : key r ∈ seen
    · rw [if_pos h]
      exact (ih seen).cons r
    · rw [if_neg h]
      exact (ih (key r :: seen)).cons₂ r

theorem dedupeAux_complete (key : Row → String) :
    ∀ (rows : List Row) (seen : List String) (r : Row),
      r ∈ rows → key r ∉ seen →
      ∃ r' ∈ dedupeAux key rows seen, key r' = key r := by
  intro rows
  induction rows with
  | nil => intro seen r hr; simp at hr
  | cons a rs ih =>
    intro seen r hr hns
    unfold dedupeAux
    by_cases h : key a ∈ seen
    · rw [if_pos h]
      rcases List.mem_cons.mp hr with rfl | hr'
      · exact absurd h hns
      · exact ih seen r hr' hns
    · rw [if_neg h]
      rcases List.mem_cons.mp hr with rfl | hr'
      · exact ⟨_, List.mem_cons_self _ _, rfl⟩
      · by_cases hk : key r = key a
        · exact ⟨a, List.mem_cons_self a _, hk.symm⟩
        · have : key r ∉ key a :: seen := by
            simp [hk, hns]
          rcases ih (key a :: seen) r hr' this with ⟨r', hmem, hkey⟩
          exact ⟨r', List.mem_cons_of_mem a hmem, hkey⟩

theorem dedupeAux_first_occurrence (key : Row → String) :
    ∀ (rows : List Row) (seen : List String) (r' : Row),
      r' ∈ dedupeAux key rows seen →
      key r' ∉ seen ∧
        ∃ l1 l2, rows = l1 ++ r' :: l2 ∧ ∀ x ∈ l1, key x ≠ key r' := by
  intro rows
  induction rows with
  | nil => intro seen r' hr'; simp [dedupeAux] at hr'
  | cons a rs ih =>
    intro seen r' hr'
    unfold dedupeAux at hr'
    by_cases h : key a ∈ seen
    · rw [if_pos h] at hr'
      rcases ih seen r' hr' with ⟨hns, l1, l2, heq, hne⟩
      refine ⟨hns, a :: l1, l2, by simp [heq], ?_⟩
      intro x hx
      rcases List.mem_cons.mp hx with rfl | hx'
      · intro hxk
        rw [hxk] at h
        exact hns h
      · exact hne x hx'
    · rw [if_neg h] at hr'
      rcases List.mem_cons.mp hr' with rfl | hr''
      · exact ⟨h, [], rs, rfl, by simp⟩
      · rcases ih (key a :: seen) r' hr'' with ⟨hns, l1, l2, heq, hne⟩
        have hra : key r' ≠ key a := by
          intro hk
          exact hns (by simp [hk])
        refine ⟨fun hc => hns (List.mem_cons_of_mem _ hc), a :: l1, l2,
          by simp [heq], ?_⟩
        intro x hx
        rcases List.mem_cons.mp hx with rfl | hx'
        · exact fun hk => hra hk.symm
        · exact hne x hx'

theorem dedupeAux_keys_nodup (key : Row → String) :
    ∀ (rows : List Row) (seen : List String),
      ((dedupeAux key rows seen).map key).Nodup := by
  intro rows
  induction rows with
  | nil => intro seen; simp [dedupeAux]
  | cons a rs ih =>
    intro seen
    unfold dedupeAux
    by_cases h : key a ∈ seen
    · rw [if_pos h]
      exact ih seen
    · rw [if_neg h]
      simp only [List.map_cons, List.nodup_cons]
      refine ⟨?_, ih (key a :: seen)⟩
      intro hmem
      rcases List.mem_map.mp hmem with ⟨r', hr', hk⟩
      have := (dedupeAux_first_occurrence key rs (key a :: seen) r' hr').1
      rw [hk] at this
      exact this (List.mem_cons_self _ _)

/-- **C7.** The final dedup over the accumulated rows is stable and keyed
by the item fingerprint: for every key function (hence for `_product_key`)
and every input list, the output is a sublist of the input (order
preserved) whose keys are pairwise distinct, every input fingerprint is
represented, each kept row is the first occurrence of its fingerprint, and
deduping `[A, B, A2]` with `key A2 = key A ≠ key B` yields `[A, B]`. -/
theorem C7_dedupe_stable :
    ∀ (key : Row → String) (rows : List Row),
      (dedupe key rows).Sublist rows
      ∧ ((dedupe key rows).map key).Nodup
      ∧ (∀ r ∈ rows, ∃ r' ∈ dedupe key rows, key r' = key r)
      ∧ (∀ r' ∈ dedupe key rows,
          ∃ l1 l2, rows = l1 ++ r' :: l2 ∧ ∀ x ∈ l1, key x ≠ key r')
      ∧ (∀ A B A2 : Row, key A2 = key A → key B ≠ key A →
          dedupe key [A, B, A2] = [A, B]) := by
  intro key rows
  refine ⟨dedupeAux_sublist key rows [], dedupeAux_keys_nodup key rows [], ?_, ?_, ?_⟩
  · intro r hr
    exact dedupeAux_complete key rows [] r hr (by simp)
  · intro r' hr'
    exact (dedupeAux_first_occurrence key rows [] r' hr').2
  · intro A B A2 h1 h2
    simp [dedupe, dedupeAux, h1, h2]

/-- Witness for C7: two rows with equal canonical fingerprints collapse to
the first occurrence, order preserved. -/
theorem C7_dedupe_stable_witness :
    dedupe rowKeyBase
        [⟨"Olive Oil", some "1L", "https://shop/x", none⟩,
         ⟨"Sunflower Oil", none, "https://shop/y", none⟩,
         ⟨"  OLIVE oil ", some "1L ", "HTTPS://SHOP/X", none⟩] =
      [⟨"Olive Oil", some "1L", "https://shop/x", none⟩,
       ⟨"Sunflower Oil", none, "https://shop/y", none⟩] :=
  (C7_dedupe_stable rowKeyBase
      [⟨"Olive Oil", some "1L", "https://shop/x", none⟩,
       ⟨"Sunflower Oil", none, "https://shop/y", none⟩,
       ⟨"  OLIVE oil ", some "1L ", "HTTPS://SHOP/X", none⟩]).2.2.2.2
    ⟨"Olive Oil", some "1L", "https://shop/x", none⟩
    ⟨"Sunflower Oil", none, "https://shop/y", none⟩
    ⟨"  OLIVE oil ", some "1L ", "HTTPS://SHOP/X", none⟩
    (by decide) (by decide)

theorem dictSet_wins_zero {d : Registry} (hd : ∀ p ∈ d, p.2.wins = 0)
    (k css : String) :
    ∀ p ∈ dictSet d k ⟨css, 0⟩, p.2.wins = 0 := by
  intro p hp
  unfold dictSet at hp
  split at hp
  · rcases List.mem_map.mp hp with ⟨q, hq, hpq⟩
    by_cases hqk : q.1 = k
    · rw [if_pos hqk] at hpq
      rw [← hpq]
    · rw [if_neg hqk] at hpq
      rw [← hpq]
      exact hd q hq
  · rcases List.mem_append.mp hp with h | h
    · exact hd p h
    · rcases List.mem_singleton.mp h with rfl
      rfl

theorem reg_wins_zero :
    ∀ (challengers : List Candidate) (init : Registry),
      (∀ p ∈ init, p.2.wins = 0) →
      ∀ p ∈ challengers.foldl (fun d c => dictSet d c.id ⟨c.css, 0⟩) init,
        p.2.wins = 0 := by
  intro challengers
  induction challengers with
  | nil => intro init h; simpa using h
  | cons c cs ih =>
    intro init h
    rw [List.foldl_cons]
    exact ih (dictSet init c.id ⟨c.css, 0⟩) (dictSet_wins_zero h c.id c.css)

theorem dictGet_wins_zero {d : Registry} (hd : ∀ p ∈ d, p.2.wins = 0)
    {k : String} {e : CandEntry} (h : dictGet d k = some e) : e.wins = 0 := by
  unfold dictGet at h
  cases hf : d.find? (fun p => p.1 = k) with
  | none => rw [hf] at h; simp at h
  | some p =>
    rw [hf] at h
    have hp : p.2 = e := by simpa using h
    have hm := hd p (List.mem_of_find?_eq_some hf)
    rw [hp] at hm
    exact hm

/-- **C1.** Contrary to the two-consecutive-wins contract (and to
`maybe_promote`'s own docstring), the source rebuilds the candidates
registry with `"wins": 0` on every call before incrementing, so a
qualifying challenger's counter is always exactly 1 and never reaches
`REQUIRED_WINS = 2`: for every persisted policy state and every input,
`maybe_promote` returns the baseline and never promotes — in particular a
challenger that outscores the baseline by `≥ PROMOTE_MARGIN` and passes
all gates on two consecutive calls (such as the concrete qualifying
metrics below) is still not promoted on the second call. -/
theorem C1_promotion_never_happens :
    (∀ (policy0 : Policy) (baseline : Candidate)
        (challengers : List Candidate) (bm : EvalMetrics)
        (cms : List (String × EvalMetrics)),
      (maybe_promote policy0 baseline challengers bm cms).winner = baseline
      ∧ (maybe_promote policy0 baseline challengers bm cms).promoted = false)
    ∧ (PROMOTE_MARGIN ≤
        shadow_score ⟨10, 9 / 10, 9 / 10, 0⟩ - shadow_score ⟨10, 1 / 2, 1 / 2, 0⟩
      ∧ gatesPass ⟨10, 9 / 10, 9 / 10, 0⟩ = true) := by
  constructor
  · intro policy0 baseline challengers bm cms
    have hreg := reg_wins_zero challengers [(baseline.id, ⟨baseline.css, 0⟩)]
      (by simp)
    unfold maybe_promote
    cases hbest : (bestChallenger (shadow_score bm) challengers cms).1 with
    | none =>
      dsimp only
      rw [hbest]
      exact ⟨rfl, rfl⟩
    | some b =>
      dsimp only
      rw [hbest]
      have hw : ((dictGet
          (challengers.foldl (fun d c => dictSet d c.id ⟨c.css, 0⟩)
            [(baseline.id, ⟨baseline.css, 0⟩)]) b.id).map
            (fun e => e.wins)).getD 0 = 0 := by
        cases hget : dictGet
            (challengers.foldl (fun d c => dictSet d c.id ⟨c.css, 0⟩)
              [(baseline.id, ⟨baseline.css, 0⟩)]) b.id with
        | none => simp
        | some e =>
          have he := dictGet_wins_zero hreg hget
          simp [hget, he]
      dsimp only
      rw [hw]
      have hnw : ¬(REQUIRED_WINS ≤ 0 + 1) := by
        unfold REQUIRED_WINS
        omega
      rw [if_neg hnw]
      exact ⟨rfl, rfl⟩
  · constructor
    · unfold PROMOTE_MARGIN shadow_score
      norm_num
    · unfold gatesPass
      norm_num

/-- **C4.** With `respect_robots` enabled and the origin's robots policy
disallowing the URL, `get_text` returns a failure whose meta reason is
`robots_disallow`, makes no HTTP request to the target URL, and draws no
rate-limit token — for every client behaviour and every schedule. -/
theorem C4_robots_disallow_early_return :
    ∀ (p : GatewayPolicy) (robots : String → Bool)
      (client : Nat → Except String HttpResponse) (sched : List Bool)
      (url : String),
      p.respect_robots = true → robots url = false →
      get_text p robots client sched url =
        ⟨none, false, none, some "robots_disallow", 0, 0⟩ := by
  intro p robots client sched url hr hro
  unfold get_text robotsAllowed
  simp [hr, hro]

/-- Witness for C4 at a concrete policy, client and schedule. -/
theorem C4_robots_disallow_early_return_witness :
    get_text ⟨"EOPT/1.0 (+compliance; polite)", 7 / 10, 4, 20, 120, true⟩
        (fun _ => false) (fun _ => Except.ok ⟨200, "body"⟩) [true, true]
        "https://example.com/page" =
      ⟨none, false, none, some "robots_disallow", 0, 0⟩ :=
  C4_robots_disallow_early_return
    ⟨"EOPT/1.0 (+compliance; polite)", 7 / 10, 4, 20, 120, true⟩
    (fun _ => false) (fun _ => Except.ok ⟨200, "body"⟩) [true, true]
    "https://example.com/page" rfl rfl

theorem toNat_ofNat_of_valid {n : ℕ} (h : n.isValidChar) :
    (Char.ofNat n).toNat = n := by
  simp only [Char.ofNat, h, dif_pos, Char.ofNatAux, Char.toNat]
  rfl

theorem lowerChar_idem (c : Char) : lowerChar (lowerChar c) = lowerChar c := by
  unfold lowerChar
  by_cases h : 65 ≤ c.toNat ∧ c.toNat ≤ 90
  · have hv : (c.toNat + 32).isValidChar := Or.inl (by omega)
    rw [if_pos h, if_neg]
    rw [toNat_ofNat_of_valid hv]
    omega
  · rw [if_neg h, if_neg h]

theorem lowerChars_idem (l : List Char) :
    lowerChars (lowerChars l) = lowerChars l := by
  unfold lowerChars
  rw [List.map_map]
  exact List.map_congr_left (fun c _ => lowerChar_idem c)

theorem pyLower_idem (s : String) : pyLower (pyLower s) = pyLower s := by
  unfold pyLower
  exact congrArg String.mk (lowerChars_idem s.data)

theorem parsePriority_lower_fixed (raw : String) :
    ∀ x ∈ parsePriority raw, pyLower x = x := by
  intro x hx
  unfold parsePriority at hx
  rcases List.mem_map.mp hx with ⟨p, _, hpx⟩
  rw [← hpx]
  unfold pyLower
  exact congrArg String.mk (lowerChars_idem (trimChars p))

theorem dedupKnown_mem :
    ∀ (l seen : List String) (p : String), p ∈ dedupKnown l seen →
      p ∈ l ∧ p ∈ FETCHERS_keys ∧ p ∉ seen := by
  intro l
  induction l with
  | nil => intro seen p hp; simp [dedupKnown] at hp
  | cons a rest ih =>
    intro seen p hp
    unfold dedupKnown at hp
    split at hp
    · rcases List.mem_cons.mp hp with rfl | hp'
      · exact ⟨List.mem_cons_self _ _, by tauto, by tauto⟩
      · rcases ih (a :: seen) p hp' with ⟨h1, h2, h3⟩
        exact ⟨List.mem_cons_of_mem a h1, h2,
          fun hc => h3 (List.mem_cons_of_mem a hc)⟩
    · rcases ih seen p hp with ⟨h1, h2, h3⟩
      exact ⟨List.mem_cons_of_mem a h1, h2, h3⟩

theorem dedupKnown_complete :
    ∀ (l seen : List String) (p : String),
      p ∈ l → p ∈ FETCHERS_keys → p ∉ seen → p ∈ dedupKnown l seen := by
  intro l
  induction l with
  | nil => intro seen p hp; simp at hp
  | cons a rest ih =>
    intro seen p hp hk hns
    unfold dedupKnown
    rcases List.mem_cons.mp hp with rfl | hp'
    · rw [if_pos ⟨hk, hns⟩]
      exact List.mem_cons_self _ _
    · split
      · by_cases hpa : p = a
        · subst hpa
          exact List.mem_cons_self _ _
        · exact List.mem_cons_of_mem a
            (ih (a :: seen) p hp' hk (by simp [hpa, hns]))
      · exact ih seen p hp' hk hns

theorem ladderLoop_invoked_mem (fetch : String → ArchiveResult) :
    ∀ (names : List String) (attempts : List ArchiveResult)
      (invoked : List String) (p : String),
      p ∈ (ladderLoop fetch names attempts invoked).invoked →
        p ∈ invoked ∨ p ∈ names := by
  intro names
  induction names with
  | nil => intro attempts invoked p hp; exact Or.inl hp
  | cons n rest ih =>
    intro attempts invoked p hp
    unfold ladderLoop at hp
    dsimp only at hp
    split at hp
    · rcases List.mem_append.mp hp with h | h
      · exact Or.inl h
      · exact Or.inr (by simpa using Or.inl (List.mem_singleton.mp h))
    · rcases ih (attempts ++ [fetch n]) (invoked ++ [n]) p hp with h | h
      · rcases List.mem_append.mp h with h' | h'
        · exact Or.inl h'
        · exact Or.inr (by simpa using Or.inl (List.mem_singleton.mp h'))
      · exact Or.inr (List.mem_cons_of_mem n h)

theorem ladderLoop_lengths (fetch : String → ArchiveResult) :
    ∀ (names : List String) (attempts : List ArchiveResult)
      (invoked : List String),
      (ladderLoop fetch names attempts invoked).invoked.length ≤
          invoked.length + names.length
      ∧ (ladderLoop fetch names attempts invoked).attempts.length ≤
          attempts.length + names.length := by
  intro names
  induction names with
  | nil => intro attempts invoked; simp [ladderLoop]
  | cons n rest ih =>
    intro attempts invoked
    unfold ladderLoop
    dsimp only
    split
    · simp
    · rcases ih (attempts ++ [fetch n]) (invoked ++ [n]) with ⟨h1, h2⟩
      simp only [List.length_append, List.length_singleton] at h1 h2
      constructor
      · refine le_trans h1 ?_
        simp
        omega
      · refine le_trans h2 ?_
        simp
        omega

/-- **C2.** With `prefer_archive = true` in the site's CSV row, a nonempty
`archive_priority` preference and no explicit priority override, the
effective provider order of `try_archives_for` consists exclusively of
providers named in that preference (every known preference provider
included, first occurrence first) — so the preference providers sit at the
front of the order and every adapter invocation hits a preference-named
provider. -/
theorem C2_prefer_archive_priority_front :
    ∀ (rows : List RetailerRow) (g : List String) (code : String)
      (row : RetailerRow),
      findRow rows code = some row →
      pyLower (pyStrip row.prefer_archive) = "true" →
      parsePriority (pyStrip row.archive_priority) ≠ [] →
      read_retailer_archive_overrides rows g code =
          (parsePriority (pyStrip row.archive_priority), true)
      ∧ (∀ p ∈ effectiveOrder none (parsePriority (pyStrip row.archive_priority)),
          p ∈ parsePriority (pyStrip row.archive_priority))
      ∧ (∀ p ∈ parsePriority (pyStrip row.archive_priority),
          p ∈ FETCHERS_keys →
          p ∈ effectiveOrder none (parsePriority (pyStrip row.archive_priority)))
      ∧ (∀ (fetch : String → ArchiveResult) (limit : Nat),
          ∀ p ∈ (try_archives_for fetch none rows g code limit).invoked,
            p ∈ parsePriority (pyStrip row.archive_priority)) := by
  intro rows g code row hrow hpref hne
  have hraw : pyStrip row.archive_priority ≠ "" := by
    intro hc
    apply hne
    rw [hc]
    decide
  have hread : read_retailer_archive_overrides rows g code =
      (parsePriority (pyStrip row.archive_priority), true) := by
    unfold read_retailer_archive_overrides
    rw [hrow]
    simp [hraw, hpref]
  have hmapfix : (parsePriority (pyStrip row.archive_priority)).map pyLower =
      parsePriority (pyStrip row.archive_priority) := by
    have := parsePriority_lower_fixed (pyStrip row.archive_priority)
    calc (parsePriority (pyStrip row.archive_priority)).map pyLower
        = (parsePriority (pyStrip row.archive_priority)).map id :=
          List.map_congr_left (fun x hx => this x hx)
      _ = parsePriority (pyStrip row.archive_priority) := List.map_id _
  have horder : effectiveOrder none (parsePriority (pyStrip row.archive_priority)) =
      dedupKnown (parsePriority (pyStrip row.archive_priority)) [] := by
    unfold effectiveOrder
    dsimp only
    rw [if_pos hne, hmapfix]
  refine ⟨hread, ?_, ?_, ?_⟩
  · intro p hp
    rw [horder] at hp
    exact (dedupKnown_mem _ [] p hp).1
  · intro p hp hk
    rw [horder]
    exact dedupKnown_complete _ [] p hp hk (by simp)
  · intro fetch limit p hp
    unfold try_archives_for at hp
    rw [hread] at hp
    rcases ladderLoop_invoked_mem fetch _ [] [] p hp with h | h
    · simp at h
    · have h' := List.mem_of_mem_take h
      rw [horder] at h'
      exact (dedupKnown_mem _ [] p h').1

/-- Witness for C2 at a concrete CSV row requesting archive-first priority. -/
theorem C2_prefer_archive_priority_front_witness :
    read_retailer_archive_overrides
        [⟨"ah_nl", "Albert Heijn", "arquivo, wayback", "TRUE"⟩]
        DEFAULT_PRIORITY "ah_nl" = (["arquivo", "wayback"], true)
    ∧ "arquivo" ∈ effectiveOrder none ["arquivo", "wayback"] := by
  have h := C2_prefer_archive_priority_front
    [⟨"ah_nl", "Albert Heijn", "arquivo, wayback", "TRUE"⟩]
    DEFAULT_PRIORITY "ah_nl"
    ⟨"ah_nl", "Albert Heijn", "arquivo, wayback", "TRUE"⟩
    (by decide) (by decide) (by decide)
  refine ⟨?_, ?_⟩
  · have := h.1
    simpa using this
  · have := h.2.2.1 "arquivo" (by decide) (by decide)
    simpa using this

/-- **C3.** For an effective provider order `[P1, P2, P3]` where `P1`'s
adapter fails and `P2`'s adapter returns ok with non-empty HTML,
`try_archives_for` returns `P2`'s result as best, with an attempt list of
exactly `[P1's result, P2's result]` and an adapter-invocation log of
exactly `[P1, P2]` — `P3`'s adapter is never invoked. -/
theorem C3_ladder_stops_at_first_good :
    ∀ (fetch : String → ArchiveResult) (P1 P2 P3 : String)
      (rows : List RetailerRow) (g : List String) (code : String),
      P1 ∈ FETCHERS_keys → P2 ∈ FETCHERS_keys → P3 ∈ FETCHERS_keys →
      P1 ≠ P2 → P1 ≠ P3 → P2 ≠ P3 →
      (fetch P1).ok = false →
      (fetch P2).ok = true →
      trimChars ((fetch P2).html.getD "").data ≠ [] →
      (try_archives_for fetch (some [P1, P2, P3]) rows g code 6).best =
          some (fetch P2)
      ∧ (try_archives_for fetch (some [P1, P2, P3]) rows g code 6).attempts =
          [fetch P1, fetch P2]
      ∧ (try_archives_for fetch (some [P1, P2, P3]) rows g code 6).invoked =
          [P1, P2]
      ∧ P3 ∉ (try_archives_for fetch (some [P1, P2, P3]) rows g code 6).invoked := by
  intro fetch P1 P2 P3 rows g code hk1 hk2 hk3 h12 h13 h23 hfail hok2 hhtml2
  have hlowfix : ∀ p ∈ FETCHERS_keys, pyLower p = p := by decide
  have hmap : [P1, P2, P3].map pyLower = [P1, P2, P3] := by
    simp [hlowfix P1 hk1, hlowfix P2 hk2, hlowfix P3 hk3]
  have horder : effectiveOrder (some [P1, P2, P3])
      (read_retailer_archive_overrides rows g code).1 = [P1, P2, P3] := by
    unfold effectiveOrder
    dsimp only
    rw [if_pos (by simp : ([P1, P2, P3] : List String) ≠ []), hmap]
    simp [dedupKnown, hk1, hk2, hk3, Ne.symm h12, Ne.symm h13, Ne.symm h23]
  have hrun : try_archives_for fetch (some [P1, P2, P3]) rows g code 6 =
      ⟨some (fetch P2), [fetch P1, fetch P2], [P1, P2]⟩ := by
    unfold try_archives_for
    dsimp only
    rw [horder]
    have htake : ([P1, P2, P3] : List String).take (max 1 6) = [P1, P2, P3] := rfl
    rw [htake]
    simp only [ladderLoop]
    rw [if_neg (by simp [hfail])]
    rw [if_pos ⟨hok2, hhtml2⟩]
    simp
  rw [hrun]
  refine ⟨rfl, rfl, rfl, ?_⟩
  simp [Ne.symm h13, Ne.symm h23]

/-- Witness for C3 at a concrete adapter oracle with a failing first
provider. -/
theorem C3_ladder_stops_at_first_good_witness :
    (try_archives_for
        (fun n =>
          if n = "wayback" then ⟨false, "wayback", "u", 404, none, "no_snapshot"⟩
          else ⟨true, n, "u2", 200, some "<html>", "ok"⟩)
        (some ["wayback", "ghost", "memento"]) [] DEFAULT_PRIORITY "ah_nl"
        6).attempts =
      [⟨false, "wayback", "u", 404, none, "no_snapshot"⟩,
       ⟨true, "ghost", "u2", 200, some "<html>", "ok"⟩] := by
  have h := (C3_ladder_stops_at_first_good
    (fun n =>
      if n = "wayback" then ⟨false, "wayback", "u", 404, none, "no_snapshot"⟩
      else ⟨true, n, "u2", 200, some "<html>", "ok"⟩)
    "wayback" "ghost" "memento" [] DEFAULT_PRIORITY "ah_nl"
    (by decide) (by decide) (by decide) (by decide) (by decide) (by decide)
    (by decide) (by decide) (by decide)).2.1
  rw [h]
  simp

/-- **C10.** `try_archives_for` attempts at most `max(1, limit)` providers
per call; with the default `limit = 6` and the default 7-entry priority
chain, the last provider `perma` — though present in the full effective
order — is never attempted, for every adapter behaviour. -/
theorem C10_limit_caps_providers :
    (∀ (fetch : String → ArchiveResult) (priority : Option (List String))
        (rows : List RetailerRow) (g : List String) (code : String)
        (limit : Nat),
      (try_archives_for fetch priority rows g code limit).invoked.length ≤
          max 1 limit
      ∧ (try_archives_for fetch priority rows g code limit).attempts.length ≤
          max 1 limit)
    ∧ (∀ (fetch : String → ArchiveResult) (code : String),
        "perma" ∉ (try_archives_for fetch none [] DEFAULT_PRIORITY code 6).invoked)
    ∧ "perma" ∈ effectiveOrder none DEFAULT_PRIORITY := by
  refine ⟨?_, ?_, by decide⟩
  · intro fetch priority rows g code limit
    unfold try_archives_for
    dsimp only
    rcases ladderLoop_lengths fetch
        ((effectiveOrder priority
            (read_retailer_archive_overrides rows g code).1).take (max 1 limit))
        [] [] with ⟨h1, h2⟩
    simp only [List.length_nil, Nat.zero_add] at h1 h2
    constructor
    · exact le_trans h1 (List.length_take_le _ _)
    · exact le_trans h2 (List.length_take_le _ _)
  · intro fetch code
    intro hmem
    unfold try_archives_for at hmem
    dsimp only at hmem
    have hread : read_retailer_archive_overrides [] DEFAULT_PRIORITY code =
        (DEFAULT_PRIORITY, false) := rfl
    rw [hread] at hmem
    have horder : effectiveOrder none DEFAULT_PRIORITY = DEFAULT_PRIORITY := by
      decide
    rw [horder] at hmem
    rcases ladderLoop_invoked_mem fetch (DEFAULT_PRIORITY.take (max 1 6)) [] []
        "perma" hmem with h | h
    · simp at h
    · exact absurd h (by decide)

theorem summarizeGo_cases (w a : String → Nat × Nat) :
    ∀ (cs : List String),
      summarizeGo w a cs = ⟨0, 0, 0, 0, 0, 0⟩
      ∨ ∃ c ∈ cs, summarizeGo w a cs = levelSummary w a c := by
  intro cs
  induction cs with
  | nil => exact Or.inl rfl
  | cons c rest ih =>
    unfold summarizeGo
    dsimp only
    split
    · exact Or.inr ⟨c, List.mem_cons_self _ _, rfl⟩
    · rcases ih with h | ⟨c', hc', h⟩
      · exact Or.inl h
      · exact Or.inr ⟨c', List.mem_cons_of_mem c hc', h⟩

/-- **C8.** `summarize_archives` climbs the normalized URL's path hierarchy
from the exact URL to the site root and returns exactly the counts of the
first level at which either index reports a snapshot, never blending
levels: for `https://host/a/b/c` with both indexes empty at `/a/b/c` and
`/a/b` but at least one snapshot at `/a`, the result is exactly the `/a`
level's counts; in general the result is either all-zero or exactly one
candidate level's counts. -/
theorem C8_stability_sampler_climbs :
    (∀ (w a : String → Nat × Nat),
      w "https://host/a/b/c" = (0, 0) → a "https://host/a/b/c" = (0, 0) →
      w "https://host/a/b" = (0, 0) → a "https://host/a/b" = (0, 0) →
      0 < (w "https://host/a").1 + (a "https://host/a").1 →
      summarize_archives w a "https://host/a/b/c" =
        levelSummary w a "https://host/a")
    ∧ (∀ (w a : String → Nat × Nat) (url : String),
        summarize_archives w a url = ⟨0, 0, 0, 0, 0, 0⟩
        ∨ ∃ c ∈ _parent_urls url,
            summarize_archives w a url = levelSummary w a c) := by
  constructor
  · intro w a h1 h2 h3 h4 h5
    have hp : _parent_urls "https://host/a/b/c" =
        ["https://host/a/b/c", "https://host/a/b", "https://host/a",
         "https://host/"] := by decide
    unfold summarize_archives
    rw [hp]
    unfold summarizeGo
    dsimp only
    rw [if_neg (by simp [levelSummary, h1, h2])]
    unfold summarizeGo
    dsimp only
    rw [if_neg (by simp [levelSummary, h3, h4])]
    unfold summarizeGo
    dsimp only
    rw [if_pos (by simp [levelSummary]; omega)]
  · intro w a url
    exact summarizeGo_cases w a (_parent_urls url)

/-- Witness for C8 at concrete index oracles: zero snapshots at `/a/b/c`
and `/a/b`, three at `/a`. -/
theorem C8_stability_sampler_climbs_witness :
    summarize_archives
        (fun u => if u = "https://host/a" then (3, 2) else (0, 0))
        (fun _ => (0, 0)) "https://host/a/b/c" = ⟨3, 2, 0, 0, 2, 3⟩ := by
  have h := C8_stability_sampler_climbs.1
    (fun u => if u = "https://host/a" then (3, 2) else (0, 0))
    (fun _ => (0, 0)) (by decide) (by decide) (by decide) (by decide) (by decide)
  rw [h]
  decide

/-! ### Character kit for the URL lemmas -/

theorem char_eq_of_toNat_eq {a b : Char} (h : a.toNat = b.toNat) : a = b := by
  have := congrArg Char.ofNat h
  rwa [Char.ofNat_toNat, Char.ofNat_toNat] at this

theorem toNat_lowerChar (c : Char) :
    (lowerChar c).toNat =
      if 65 ≤ c.toNat ∧ c.toNat ≤ 90 then c.toNat + 32 else c.toNat := by
  unfold lowerChar
  by_cases h : 65 ≤ c.toNat ∧ c.toNat ≤ 90
  · rw [if_pos h, if_pos h]
    exact toNat_ofNat_of_valid (Or.inl (by omega))
  · rw [if_neg h, if_neg h]

theorem lowerChar_of_not_upper {c : Char}
    (h : ¬(65 ≤ c.toNat ∧ c.toNat ≤ 90)) : lowerChar c = c := by
  unfold lowerChar
  rw [if_neg h]

theorem lowerChar_isSchemeChar {c : Char} (h : isSchemeChar c = true) :
    isSchemeChar (lowerChar c) = true := by
  by_cases hu : 65 ≤ c.toNat ∧ c.toNat ≤ 90
  · have ht : (lowerChar c).toNat = c.toNat + 32 := by
      rw [toNat_lowerChar, if_pos hu]
    unfold isSchemeChar isAsciiAlphaB
    simp only [decide_eq_true_eq, Bool.or_eq_true]
    left
    left
    constructor
    · show 'a' ≤ lowerChar c
      show 'a'.toNat ≤ (lowerChar c).toNat
      rw [ht]
      have : 'a'.toNat = 97 := by decide
      omega
    · show lowerChar c ≤ 'z'
      show (lowerChar c).toNat ≤ 'z'.toNat
      rw [ht]
      have : 'z'.toNat = 122 := by decide
      omega
  · rw [lowerChar_of_not_upper hu]
    exact h

theorem lowerChar_isAsciiAlphaB {c : Char} (h : isAsciiAlphaB c = true) :
    isAsciiAlphaB (lowerChar c) = true := by
  by_cases hu : 65 ≤ c.toNat ∧ c.toNat ≤ 90
  · have ht : (lowerChar c).toNat = c.toNat + 32 := by
      rw [toNat_lowerChar, if_pos hu]
    unfold isAsciiAlphaB
    simp only [decide_eq_true_eq, Bool.or_eq_true]
    left
    constructor
    · show 'a'.toNat ≤ (lowerChar c).toNat
      rw [ht]
      have : 'a'.toNat = 97 := by decide
      omega
    · show (lowerChar c).toNat ≤ 'z'.toNat
      rw [ht]
      have : 'z'.toNat = 122 := by decide
      omega
  · rw [lowerChar_of_not_upper hu]
    exact h

theorem lowerChar_notDelim {c : Char} (h : notDelim c = true) :
    notDelim (lowerChar c) = true := by
  by_cases hu : 65 ≤ c.toNat ∧ c.toNat ≤ 90
  · have ht : (lowerChar c).toNat = c.toNat + 32 := by
      rw [toNat_lowerChar, if_pos hu]
    unfold notDelim
    simp only [decide_eq_true_eq]
    intro hc
    have hslash : ('/').toNat = 47 := by decide
    have hq : ('?').toNat = 63 := by decide
    have hhash : ('#').toNat = 35 := by decide
    rcases hc with hc | hc | hc <;>
      · have h2 := congrArg Char.toNat hc
        rw [ht] at h2
        omega
  · rw [lowerChar_of_not_upper hu]
    exact h

theorem lowerChar_not_isTabCrLf {c : Char} (h : isTabCrLf c = false) :
    isTabCrLf (lowerChar c) = false := by
  by_cases hu : 65 ≤ c.toNat ∧ c.toNat ≤ 90
  · have ht : (lowerChar c).toNat = c.toNat + 32 := by
      rw [toNat_lowerChar, if_pos hu]
    unfold isTabCrLf
    simp only [decide_eq_false_iff_not]
    intro hc
    have htab : ('\t').toNat = 9 := by decide
    have hcr : ('\r').toNat = 13 := by decide
    have hlf : ('\n').toNat = 10 := by decide
    rcases hc with hc | hc | hc <;>
      · have h2 := congrArg Char.toNat hc
        rw [ht] at h2
        omega
  · rw [lowerChar_of_not_upper hu]
    exact h

/-! ### List kit for the URL lemmas -/

theorem takeWhile_append_cons {p : Char → Bool} :
    ∀ (l1 : List Char) (x : Char) (l2 : List Char),
      (∀ c ∈ l1, p c = true) → p x = false →
      (l1 ++ x :: l2).takeWhile p = l1 ∧ (l1 ++ x :: l2).dropWhile p = x :: l2 := by
  intro l1
  induction l1 with
  | nil =>
    intro x l2 _ hx
    simp [List.takeWhile, List.dropWhile, hx]
  | cons a t ih =>
    intro x l2 hall hx
    have ha : p a = true := hall a (List.mem_cons_self _ _)
    have ht := ih x l2 (fun c hc => hall c (List.mem_cons_of_mem a hc)) hx
    simp [List.takeWhile_cons, List.dropWhile_cons, ha, ht.1, ht.2]

theorem dropWhile_head_false {p : Char → Bool} (l : List Char) (d : Char) :
    l.dropWhile p = [] ∨ p ((l.dropWhile p).headD d) = false := by
  induction l with
  | nil => exact Or.inl rfl
  | cons a t ih =>
    by_cases h : p a
    · simpa [List.dropWhile_cons, h] using ih
    · right
      simp [List.dropWhile_cons, h]

theorem lstripC0_id {l : List Char} (h : l = [] ∨ 32 < (l.headD ' ').toNat) :
    lstripC0 l = l := by
  unfold lstripC0
  cases l with
  | nil => rfl
  | cons a t =>
    rcases h with h | h
    · exact absurd h (by simp)
    · simp only [List.headD_cons] at h
      rw [List.dropWhile_cons, if_neg]
      simp
      omega

theorem removeTabCrLf_id {l : List Char} (h : ∀ c ∈ l, isTabCrLf c = false) :
    removeTabCrLf l = l := by
  unfold removeTabCrLf
  rw [List.filter_eq_self]
  intro a ha
  simp [h a ha]

theorem mem_removeTabCrLf {l : List Char} {c : Char}
    (h : c ∈ removeTabCrLf (lstripC0 l)) : isTabCrLf c = false := by
  unfold removeTabCrLf at h
  have := List.of_mem_filter h
  simpa using this

theorem prefix_headD {l1 l2 : List Char} (h : l1 <+: l2) (hne : l1 ≠ [])
    (d : Char) : l1.headD d = l2.headD d := by
  rcases h with ⟨t, rfl⟩
  cases l1 with
  | nil => exact absurd rfl hne
  | cons a t1 => rfl

theorem takeWhile_prefix_eq {p : Char → Bool} :
    ∀ (l1 l2 : List Char), l1 <+: l2 → (∃ x ∈ l1, p x = false) →
      l1.takeWhile p = l2.takeWhile p := by
  intro l1
  induction l1 with
  | nil =>
    intro l2 _ hx
    simp at hx
  | cons a t ih =>
    intro l2 hpre hx
    rcases hpre with ⟨rest, rfl⟩
    by_cases ha : p a
    · rcases hx with ⟨x, hxm, hxf⟩
      rcases List.mem_cons.mp hxm with rfl | hxm'
      · exact absurd ha (by simp [hxf])
      · rw [List.cons_append, List.takeWhile_cons, List.takeWhile_cons, if_pos ha,
          if_pos ha, ih (t ++ rest) (List.prefix_append t rest) ⟨x, hxm', hxf⟩]
    · rw [List.cons_append, List.takeWhile_cons, List.takeWhile_cons, if_neg ha,
        if_neg ha]

/-! ### Splitter lemmas -/

theorem splitScheme_of_scheme (s rest : List Char) (hne : s ≠ [])
    (hall : s.all isSchemeChar = true)
    (hhead : isAsciiAlphaB (s.headD ' ') = true)
    (hlow : lowerChars s = s) :
    splitScheme (s ++ ':' :: rest) = (s, rest) := by
  have hnc : ∀ c ∈ s, (fun c => decide (c ≠ ':')) c = true := by
    intro c hc
    have hsc := List.all_eq_true.mp hall c hc
    simp only [decide_eq_true_eq]
    intro hcc
    rw [hcc] at hsc
    exact absurd hsc (by decide)
  have htd := takeWhile_append_cons s ':' rest hnc (by simp)
  unfold splitScheme
  dsimp only
  rw [htd.1, htd.2]
  rw [if_pos ⟨List.mem_append_right s (List.mem_cons_self _ _), hne, hhead, hall⟩]
  rw [hlow]
  rfl

theorem splitScheme_fst_nil {url : List Char} (h : (splitScheme url).1 = []) :
    splitScheme url = ([], url) := by
  by_cases hc : (':' ∈ url) ∧ url.takeWhile (fun c => c ≠ ':') ≠ [] ∧
      isAsciiAlphaB ((url.takeWhile (fun c => c ≠ ':')).headD ' ') = true ∧
      (url.takeWhile (fun c => c ≠ ':')).all isSchemeChar = true
  · exfalso
    unfold splitScheme at h
    rw [if_pos hc] at h
    dsimp only at h
    unfold lowerChars at h
    exact hc.2.1 (List.map_eq_nil_iff.mp h)
  · unfold splitScheme
    rw [if_neg hc]

theorem splitScheme_prefix_none {url pfx : List Char} (hp : pfx <+: url)
    (h : splitScheme url = ([], url)) : splitScheme pfx = ([], pfx) := by
  have hcu : ¬((':' ∈ url) ∧ url.takeWhile (fun c => c ≠ ':') ≠ [] ∧
      isAsciiAlphaB ((url.takeWhile (fun c => c ≠ ':')).headD ' ') = true ∧
      (url.takeWhile (fun c => c ≠ ':')).all isSchemeChar = true) := by
    intro hc
    unfold splitScheme at h
    rw [if_pos hc] at h
    have := congrArg Prod.fst h
    dsimp only at this
    unfold lowerChars at this
    exact hc.2.1 (List.map_eq_nil_iff.mp this)
  unfold splitScheme
  rw [if_neg]
  intro hc
  apply hcu
  have hmem : (':' : Char) ∈ url := hp.sublist.mem hc.1
  have heq : pfx.takeWhile (fun c => c ≠ ':') = url.takeWhile (fun c => c ≠ ':') :=
    takeWhile_prefix_eq pfx url hp ⟨':', hc.1, by simp⟩
  rw [heq] at hc
  exact ⟨hmem, hc.2.1, hc.2.2.1, hc.2.2.2⟩

theorem splitNetloc_slashslash (rest : List Char) :
    splitNetloc ('/' :: '/' :: rest) =
      (rest.takeWhile notDelim, rest.dropWhile notDelim) := rfl

theorem splitNetloc_not_slashslash {url : List Char}
    (h : url.take 2 ≠ ['/', '/']) : splitNetloc url = ([], url) := by
  unfold splitNetloc
  rw [if_neg h]

theorem splitFragment_of_not_mem {url : List Char} (h : '#' ∉ url) :
    splitFragment url = (url, []) := by
  unfold splitFragment
  rw [if_neg h]

theorem splitQuery_of_not_mem {url : List Char} (h : '?' ∉ url) :
    splitQuery url = (url, []) := by
  unfold splitQuery
  rw [if_neg h]

theorem splitFragment_fst_pre (url : List Char) :
    (splitFragment url).1 <+: url := by
  unfold splitFragment
  by_cases h : '#' ∈ url
  · rw [if_pos h]
    exact List.takeWhile_prefix _
  · rw [if_neg h]

theorem splitQuery_fst_pre (url : List Char) :
    (splitQuery url).1 <+: url := by
  unfold splitQuery
  by_cases h : '?' ∈ url
  · rw [if_pos h]
    exact List.takeWhile_prefix _
  · rw [if_neg h]

theorem splitFragment_fst_not_mem (url : List Char) :
    '#' ∉ (splitFragment url).1 := by
  unfold splitFragment
  by_cases h : '#' ∈ url
  · rw [if_pos h]
    intro hm
    have := List.mem_takeWhile_imp hm
    simp at this
  · rw [if_neg h]
    exact h

theorem splitQuery_fst_not_mem (url : List Char) :
    '?' ∉ (splitQuery url).1 := by
  unfold splitQuery
  by_cases h : '?' ∈ url
  · rw [if_pos h]
    intro hm
    have := List.mem_takeWhile_imp hm
    simp at this
  · rw [if_neg h]
    exact h

theorem pySplitChars_eq (l : List Char) :
    pySplitChars l =
      ⟨(splitScheme (removeTabCrLf (lstripC0 l))).1,
       (splitNetloc (splitScheme (removeTabCrLf (lstripC0 l))).2).1,
       (splitQuery (splitFragment
         (splitNetloc (splitScheme (removeTabCrLf (lstripC0 l))).2).2).1).1,
       (splitQuery (splitFragment
         (splitNetloc (splitScheme (removeTabCrLf (lstripC0 l))).2).2).1).2,
       (splitFragment
         (splitNetloc (splitScheme (removeTabCrLf (lstripC0 l))).2).2).2⟩ := rfl

theorem splitNetloc_pos {url : List Char} (h : url.take 2 = ['/', '/']) :
    splitNetloc url =
      ((url.drop 2).takeWhile notDelim, (url.drop 2).dropWhile notDelim) := by
  unfold splitNetloc
  rw [if_pos h]

/-- The netloc never contains `/`, `?` or `#`. -/
theorem inv_netloc_delim (l : List Char) :
    ∀ c ∈ (pySplitChars l).netloc, notDelim c = true := by
  rw [pySplitChars_eq]
  intro c hc
  dsimp only at hc
  by_cases h : ((splitScheme (removeTabCrLf (lstripC0 l))).2).take 2 = ['/', '/']
  · rw [splitNetloc_pos h] at hc
    exact List.mem_takeWhile_imp hc
  · rw [splitNetloc_not_slashslash h] at hc
    simp at hc

/-- The path never contains `#` or `?`. -/
theorem inv_path_clean (l : List Char) :
    '#' ∉ (pySplitChars l).path ∧ '?' ∉ (pySplitChars l).path := by
  rw [pySplitChars_eq]
  dsimp only
  constructor
  · intro hc
    exact splitFragment_fst_not_mem _
      ((splitQuery_fst_pre _).sublist.mem hc)
  · intro hc
    exact splitQuery_fst_not_mem _ hc

theorem splitScheme_snd_sublist (url : List Char) :
    List.Sublist (splitScheme url).2 url := by
  unfold splitScheme
  dsimp only
  split
  · exact (List.tail_sublist _).trans (List.dropWhile_sublist _)
  · exact List.Sublist.refl url

theorem splitNetloc_snd_sublist (url : List Char) :
    List.Sublist (splitNetloc url).2 url := by
  unfold splitNetloc
  split
  · exact (List.dropWhile_sublist _).trans (List.drop_sublist 2 url)
  · exact List.Sublist.refl url

theorem splitNetloc_fst_sublist (url : List Char) :
    List.Sublist (splitNetloc url).1 url := by
  unfold splitNetloc
  split
  · exact (List.takeWhile_sublist _).trans (List.drop_sublist 2 url)
  · exact List.nil_sublist url

theorem splitScheme_fst_mem {url : List Char} {c : Char}
    (hc : c ∈ (splitScheme url).1) : ∃ c' ∈ url, c = lowerChar c' := by
  unfold splitScheme at hc
  dsimp only at hc
  split at hc
  · unfold lowerChars at hc
    rcases List.mem_map.mp hc with ⟨c', hc', rfl⟩
    exact ⟨c', (List.takeWhile_prefix _).sublist.mem hc', rfl⟩
  · simp at hc

/-- The path of a split is a sublist of the cleaned input (and so is the
remainder after the netloc step). -/
theorem inv_path_sublist (l : List Char) :
    List.Sublist (pySplitChars l).path
      (splitNetloc (splitScheme (removeTabCrLf (lstripC0 l))).2).2 := by
  rw [pySplitChars_eq]
  dsimp only
  exact (splitQuery_fst_pre _).sublist.trans (splitFragment_fst_pre _).sublist

/-- No component of a split contains a tab, carriage return or newline. -/
theorem inv_tab_free (l : List Char) :
    (∀ c ∈ (pySplitChars l).scheme, isTabCrLf c = false)
    ∧ (∀ c ∈ (pySplitChars l).netloc, isTabCrLf c = false)
    ∧ (∀ c ∈ (pySplitChars l).path, isTabCrLf c = false) := by
  have hurl0 : ∀ c ∈ removeTabCrLf (lstripC0 l), isTabCrLf c = false :=
    fun _ hc => mem_removeTabCrLf hc
  have hpath := inv_path_sublist l
  rw [pySplitChars_eq]
  rw [pySplitChars_eq] at hpath
  dsimp only at hpath ⊢
  refine ⟨?_, ?_, ?_⟩
  · intro c hc
    rcases splitScheme_fst_mem hc with ⟨c', hc', rfl⟩
    exact lowerChar_not_isTabCrLf (hurl0 c' hc')
  · intro c hc
    exact hurl0 c ((splitScheme_snd_sublist _).mem
      ((splitNetloc_fst_sublist _).mem hc))
  · intro c hc
    exact hurl0 c ((splitScheme_snd_sublist _).mem
      ((splitNetloc_snd_sublist _).mem (hpath.mem hc)))

/-- The path of a split is a prefix of the remainder after the netloc
step. -/
theorem inv_path_pre (l : List Char) :
    (pySplitChars l).path <+:
      (splitNetloc (splitScheme (removeTabCrLf (lstripC0 l))).2).2 := by
  rw [pySplitChars_eq]
  dsimp only
  exact (splitQuery_fst_pre _).trans (splitFragment_fst_pre _)

/-- A nonempty scheme is made of scheme characters, starts with an ASCII
letter, and is already lowercased. -/
theorem inv_scheme (l : List Char) :
    (pySplitChars l).scheme ≠ [] →
      ((pySplitChars l).scheme.all isSchemeChar = true
       ∧ isAsciiAlphaB ((pySplitChars l).scheme.headD ' ') = true
       ∧ lowerChars (pySplitChars l).scheme = (pySplitChars l).scheme) := by
  rw [pySplitChars_eq]
  dsimp only
  intro hne
  by_cases hc : (':' ∈ removeTabCrLf (lstripC0 l)) ∧
      (removeTabCrLf (lstripC0 l)).takeWhile (fun c => c ≠ ':') ≠ [] ∧
      isAsciiAlphaB
        (((removeTabCrLf (lstripC0 l)).takeWhile (fun c => c ≠ ':')).headD ' ') = true ∧
      ((removeTabCrLf (lstripC0 l)).takeWhile (fun c => c ≠ ':')).all isSchemeChar = true
  · have hfst : (splitScheme (removeTabCrLf (lstripC0 l))).1 =
        lowerChars ((removeTabCrLf (lstripC0 l)).takeWhile (fun c => c ≠ ':')) := by
      unfold splitScheme
      rw [if_pos hc]
    rw [hfst]
    obtain ⟨_, hpne, halpha, hall⟩ := hc
    refine ⟨?_, ?_, lowerChars_idem _⟩
    · rw [List.all_eq_true]
      intro c hcm
      unfold lowerChars at hcm
      rcases List.mem_map.mp hcm with ⟨c', hc', rfl⟩
      exact lowerChar_isSchemeChar (List.all_eq_true.mp hall c' hc')
    · revert hpne halpha
      cases (removeTabCrLf (lstripC0 l)).takeWhile (fun c => c ≠ ':') with
      | nil => intro hpne _; exact absurd rfl hpne
      | cons a t =>
        intro _ halpha
        simpa [lowerChars] using lowerChar_isAsciiAlphaB (by simpa using halpha)
  · exfalso
    apply hne
    unfold splitScheme
    rw [if_neg hc]

theorem urlZero_head (l : List Char) :
    removeTabCrLf (lstripC0 l) = [] ∨
      32 < ((removeTabCrLf (lstripC0 l)).headD ' ').toNat := by
  cases hl : lstripC0 l with
  | nil => left; rfl
  | cons a t =>
    have h32 : 32 < a.toNat := by
      rcases dropWhile_head_false (p := fun c => decide (c.toNat ≤ 32)) l ' '
          with h0 | h0
      · rw [show l.dropWhile (fun c => decide (c.toNat ≤ 32)) = lstripC0 l from rfl,
          hl] at h0
        simp at h0
      · rw [show l.dropWhile (fun c => decide (c.toNat ≤ 32)) = lstripC0 l from rfl,
          hl] at h0
        simpa using h0
    right
    have hna : isTabCrLf a = false := by
      unfold isTabCrLf
      simp only [decide_eq_false_iff_not]
      have htab : ('\t').toNat = 9 := by decide
      have hlf : ('\n').toNat = 10 := by decide
      have hcr : ('\r').toNat = 13 := by decide
      intro hx
      rcases hx with hx | hx | hx <;>
        · have := congrArg Char.toNat hx
          omega
    unfold removeTabCrLf
    rw [List.filter_cons_of_pos (by simp [hna])]
    simpa using h32

/-- If the netloc branch of the split was taken, the resulting path is
empty or starts with `/`. -/
theorem path_head_slash_of_branch (l : List Char)
    (htake : ((splitScheme (removeTabCrLf (lstripC0 l))).2).take 2 = ['/', '/']) :
    (pySplitChars l).path = [] ∨ (pySplitChars l).path.headD ' ' = '/' := by
  by_cases hp : (pySplitChars l).path = []
  · exact Or.inl hp
  · right
    have hpre := inv_path_pre l
    rw [splitNetloc_pos htake] at hpre
    dsimp only at hpre
    have hhead : (pySplitChars l).path.headD ' ' =
        (((splitScheme (removeTabCrLf (lstripC0 l))).2.drop 2).dropWhile
          notDelim).headD ' ' :=
      prefix_headD hpre hp ' '
    rcases dropWhile_head_false
        (p := notDelim) ((splitScheme (removeTabCrLf (lstripC0 l))).2.drop 2) ' '
        with h0 | h0
    · rw [h0] at hpre
      exact absurd (List.prefix_nil.mp hpre) hp
    · rw [← hhead] at h0
      unfold notDelim at h0
      simp only [decide_eq_false_iff_not, Decidable.not_not] at h0
      have hmem : (pySplitChars l).path.headD ' ' ∈ (pySplitChars l).path := by
        cases hx : (pySplitChars l).path with
        | nil => exact absurd hx hp
        | cons a t => simp
      rcases h0 with h0 | h0 | h0
      · exact h0
      · exfalso
        rw [h0] at hmem
        exact (inv_path_clean l).2 hmem
      · exfalso
        rw [h0] at hmem
        exact (inv_path_clean l).1 hmem

/-- A nonempty netloc forces the path to be empty or `/`-headed. -/
theorem inv_path_head (l : List Char) :
    (pySplitChars l).netloc ≠ [] →
      ((pySplitChars l).path = [] ∨ (pySplitChars l).path.headD ' ' = '/') := by
  intro hnne
  by_cases htake : ((splitScheme (removeTabCrLf (lstripC0 l))).2).take 2 = ['/', '/']
  · exact path_head_slash_of_branch l htake
  · exfalso
    apply hnne
    rw [pySplitChars_eq]
    dsimp only
    rw [splitNetloc_not_slashslash htake]

theorem splitScheme_none_of_head_slash {url : List Char} (hne : url ≠ [])
    (h : url.headD ' ' = '/') : splitScheme url = ([], url) := by
  cases url with
  | nil => exact absurd rfl hne
  | cons a t =>
    have ha : a = '/' := by simpa using h
    subst ha
    unfold splitScheme
    rw [if_neg]
    intro hc
    have hpre : ('/' :: t).takeWhile (fun c => c ≠ ':') =
        '/' :: t.takeWhile (fun c => c ≠ ':') := by
      rw [List.takeWhile_cons, if_pos (by simp)]
    rw [hpre] at hc
    have halpha : isAsciiAlphaB '/' = true := by simpa using hc.2.2.1
    exact absurd halpha (by decide)

/-- With no scheme and no netloc, the split's path re-parses with no
scheme, and is empty or headed by a printable character (so a re-split
strips nothing). -/
theorem inv_bare (l : List Char) :
    (pySplitChars l).scheme = [] → (pySplitChars l).netloc = [] →
      (splitScheme (pySplitChars l).path = ([], (pySplitChars l).path)
       ∧ ((pySplitChars l).path = [] ∨
            32 < ((pySplitChars l).path.headD ' ').toNat)) := by
  intro hs hn
  have hss : splitScheme (removeTabCrLf (lstripC0 l)) =
      ([], removeTabCrLf (lstripC0 l)) := by
    apply splitScheme_fst_nil
    rw [pySplitChars_eq] at hs
    exact hs
  by_cases htake :
      ((splitScheme (removeTabCrLf (lstripC0 l))).2).take 2 = ['/', '/']
  · rcases path_head_slash_of_branch l htake with hp | hp
    · constructor
      · rw [hp]
        decide
      · exact Or.inl hp
    · have hpne : (pySplitChars l).path ≠ [] := by
        intro h0
        rw [h0] at hp
        exact absurd hp (by decide)
      constructor
      · exact splitScheme_none_of_head_slash hpne hp
      · right
        rw [hp]
        decide
  · have hn2 : (splitNetloc (splitScheme (removeTabCrLf (lstripC0 l))).2).2 =
        removeTabCrLf (lstripC0 l) := by
      rw [splitNetloc_not_slashslash htake, hss]
    have hppre : (pySplitChars l).path <+: removeTabCrLf (lstripC0 l) := by
      have hpre := inv_path_pre l
      rw [hn2] at hpre
      exact hpre
    constructor
    · exact splitScheme_prefix_none hppre hss
    · rcases urlZero_head l with h0 | h0
      · rw [h0] at hppre
        exact Or.inl (List.prefix_nil.mp hppre)
      · by_cases hpe : (pySplitChars l).path = []
        · exact Or.inl hpe
        · right
          rw [prefix_headD hppre hpe ' ']
          exact h0

theorem alpha_gt32 {c : Char} (h : isAsciiAlphaB c = true) : 32 < c.toNat := by
  unfold isAsciiAlphaB at h
  simp only [decide_eq_true_eq, Bool.or_eq_true] at h
  have ha : ('a').toNat = 97 := by decide
  have hA : ('A').toNat = 65 := by decide
  rcases h with ⟨h1, _⟩ | ⟨h1, _⟩
  · have : ('a').toNat ≤ c.toNat := h1
    omega
  · have : ('A').toNat ≤ c.toNat := h1
    omega

/-- When the input needs no leading strip and holds no unsafe bytes, a
split is just the four splitting stages. -/
theorem pySplitChars_clean {v : List Char}
    (hgood : v = [] ∨ 32 < (v.headD ' ').toNat)
    (hclean : ∀ c ∈ v, isTabCrLf c = false) :
    pySplitChars v =
      ⟨(splitScheme v).1,
       (splitNetloc (splitScheme v).2).1,
       (splitQuery (splitFragment (splitNetloc (splitScheme v).2).2).1).1,
       (splitQuery (splitFragment (splitNetloc (splitScheme v).2).2).1).2,
       (splitFragment (splitNetloc (splitScheme v).2).2).2⟩ := by
  rw [pySplitChars_eq, lstripC0_id hgood, removeTabCrLf_id hclean]

/-- The inner `'/'`-prepending of `urlunsplit` is the identity on the
paths a split can produce. -/
theorem unsplit_inner_pfx {p : List Char}
    (hp_shape : p = [] ∨ p.headD ' ' = '/') :
    (if p ≠ [] ∧ p.take 1 ≠ ['/'] then '/' :: p else p) = p := by
  rcases hp_shape with hp | hp
  · rw [hp]
    simp
  · rw [if_neg]
    intro hc
    apply hc.2
    cases p with
    | nil => exact absurd rfl hc.1
    | cons a t =>
      have ha : a = '/' := by simpa using hp
      rw [ha]
      rfl

/-- `takeWhile`/`dropWhile` recover the netloc and path exactly. -/
theorem netloc_path_split {n p : List Char}
    (hn_delim : ∀ c ∈ n, notDelim c = true)
    (hp_shape : p = [] ∨ p.headD ' ' = '/') :
    (n ++ p).takeWhile notDelim = n ∧ (n ++ p).dropWhile notDelim = p := by
  rcases hp_shape with hp | hp
  · subst hp
    rw [List.append_nil]
    exact ⟨List.takeWhile_eq_self_iff.mpr hn_delim,
      List.dropWhile_eq_nil_iff.mpr hn_delim⟩
  · cases p with
    | nil => exact absurd hp (by decide)
    | cons a t =>
      have ha : a = '/' := by simpa using hp
      subst ha
      exact takeWhile_append_cons n '/' t hn_delim (by decide)

/-- Case with a nonempty netloc: re-splitting the rebuilt URL recovers the
same components, so a second strip is the identity. -/
theorem stripQF_stable_netloc (s n p : List Char)
    (hs : s = [] ∨ (s ≠ [] ∧ s.all isSchemeChar = true ∧
      isAsciiAlphaB (s.headD ' ') = true ∧ lowerChars s = s))
    (hn_ne : n ≠ [])
    (hn_delim : ∀ c ∈ n, notDelim c = true)
    (hn_low : lowerChars n = n)
    (hp_clean : '#' ∉ p ∧ '?' ∉ p)
    (hp_shape : p = [] ∨ p.headD ' ' = '/')
    (hs_tab : ∀ c ∈ s, isTabCrLf c = false)
    (hn_tab : ∀ c ∈ n, isTabCrLf c = false)
    (hp_tab : ∀ c ∈ p, isTabCrLf c = false) :
    stripQFChars (pyUnsplitChars s n p [] []) = pyUnsplitChars s n p [] [] := by
  have hv : pyUnsplitChars s n p [] [] =
      (if s ≠ [] then s ++ ':' :: ('/' :: '/' :: (n ++ p))
       else '/' :: '/' :: (n ++ p)) := by
    unfold pyUnsplitChars
    dsimp only
    rw [if_pos (Or.inl hn_ne), unsplit_inner_pfx hp_shape]
    by_cases hse : s = []
    · simp [hse]
    · simp [hse]
  have hnp := netloc_path_split hn_delim hp_shape
  have hclean1 : ∀ c ∈ ('/' :: '/' :: (n ++ p) : List Char),
      isTabCrLf c = false := by
    intro c hc
    rcases List.mem_cons.mp hc with rfl | hc
    · decide
    rcases List.mem_cons.mp hc with rfl | hc
    · decide
    rcases List.mem_append.mp hc with hc | hc
    · exact hn_tab c hc
    · exact hp_tab c hc
  have hfq : splitFragment p = (p, []) ∧ splitQuery p = (p, []) :=
    ⟨splitFragment_of_not_mem hp_clean.1, splitQuery_of_not_mem hp_clean.2⟩
  rcases hs with hs0 | ⟨hsne, hsall, hshead, hslow⟩
  · subst hs0
    rw [hv, if_neg (by simp)]
    have hsp : pySplitChars ('/' :: '/' :: (n ++ p)) = ⟨[], n, p, [], []⟩ := by
      rw [pySplitChars_clean (Or.inr (by rw [List.headD_cons]; decide)) hclean1]
      rw [splitScheme_none_of_head_slash (by simp) (by simp)]
      dsimp only
      rw [splitNetloc_slashslash]
      dsimp only
      rw [hnp.1, hnp.2, hfq.1]
      dsimp only
      rw [hfq.2]
    unfold stripQFChars
    rw [hsp]
    dsimp only
    rw [hn_low]
    unfold pyUnsplitChars
    dsimp only
    rw [if_pos (Or.inl hn_ne), unsplit_inner_pfx hp_shape]
    simp
  · rw [hv, if_pos hsne]
    have hclean2 : ∀ c ∈ s ++ ':' :: ('/' :: '/' :: (n ++ p)),
        isTabCrLf c = false := by
      intro c hc
      rcases List.mem_append.mp hc with hc | hc
      · exact hs_tab c hc
      rcases List.mem_cons.mp hc with rfl | hc
      · decide
      · exact hclean1 c hc
    have hgood2 : s ++ ':' :: ('/' :: '/' :: (n ++ p)) = [] ∨
        32 < ((s ++ ':' :: ('/' :: '/' :: (n ++ p))).headD ' ').toNat := by
      right
      cases s with
      | nil => exact absurd rfl hsne
      | cons a t =>
        rw [List.cons_append]
        exact alpha_gt32 (by simpa using hshead)
    have hsp : pySplitChars (s ++ ':' :: ('/' :: '/' :: (n ++ p))) =
        ⟨s, n, p, [], []⟩ := by
      rw [pySplitChars_clean hgood2 hclean2]
      rw [splitScheme_of_scheme s _ hsne hsall hshead hslow]
      dsimp only
      rw [splitNetloc_slashslash]
      dsimp only
      rw [hnp.1, hnp.2, hfq.1]
      dsimp only
      rw [hfq.2]
    unfold stripQFChars
    rw [hsp]
    dsimp only
    rw [hn_low]
    unfold pyUnsplitChars
    dsimp only
    rw [if_pos (Or.inl hn_ne), unsplit_inner_pfx hp_shape]
    simp [hsne]

/-- Case with an empty netloc (and a path not beginning `//`):
re-stripping the rebuilt URL is the identity. -/
theorem stripQF_stable_no_netloc (s p : List Char)
    (hs : s = [] ∨ (s ≠ [] ∧ s.all isSchemeChar = true ∧
      isAsciiAlphaB (s.headD ' ') = true ∧ lowerChars s = s))
    (hp_clean : '#' ∉ p ∧ '?' ∉ p)
    (hp2 : p.take 2 ≠ ['/', '/'])
    (hbare : s = [] →
      (splitScheme p = ([], p) ∧ (p = [] ∨ 32 < (p.headD ' ').toNat)))
    (hs_tab : ∀ c ∈ s, isTabCrLf c = false)
    (hp_tab : ∀ c ∈ p, isTabCrLf c = false) :
    stripQFChars (pyUnsplitChars s [] p [] []) = pyUnsplitChars s [] p [] [] := by
  rcases hs with hs0 | ⟨hsne, hsall, hshead, hslow⟩
  · subst hs0
    have hv : pyUnsplitChars [] [] p [] [] = p := by
      unfold pyUnsplitChars
      dsimp only
      simp
    rw [hv]
    unfold stripQFChars
    have hsp : pySplitChars p = ⟨[], [], p, [], []⟩ := by
      rw [pySplitChars_clean ((hbare rfl).2) hp_tab]
      rw [(hbare rfl).1]
      dsimp only
      rw [splitNetloc_not_slashslash hp2]
      dsimp only
      rw [splitFragment_of_not_mem hp_clean.1]
      dsimp only
      rw [splitQuery_of_not_mem hp_clean.2]
    rw [hsp]
    dsimp only
    unfold pyUnsplitChars
    dsimp only
    simp [lowerChars]
  · by_cases huse : s ∈ usesNetlocChars
    · have hp2' : (if p ≠ [] ∧ p.take 1 ≠ ['/'] then '/' :: p else p).take 2 ≠
          ['/', '/'] := by
        by_cases hc : p ≠ [] ∧ p.take 1 ≠ ['/']
        · rw [if_pos hc]
          cases p with
          | nil => exact absurd rfl hc.1
          | cons a t =>
            intro habs
            apply hc.2
            have : a = '/' := by
              have := congrArg (fun l => List.getD l 1 ' ') habs
              simpa using this
            simp [this]
        · rw [if_neg hc]
          exact hp2
      have hpfxshape : (if p ≠ [] ∧ p.take 1 ≠ ['/'] then '/' :: p else p) = [] ∨
          (if p ≠ [] ∧ p.take 1 ≠ ['/'] then '/' :: p else p).headD ' ' = '/' := by
        by_cases hc : p ≠ [] ∧ p.take 1 ≠ ['/']
        · rw [if_pos hc]
          right
          rfl
        · rw [if_neg hc]
          push_neg at hc
          by_cases hpe : p = []
          · exact Or.inl hpe
          · right
            have ht1 := hc hpe
            cases p with
            | nil => exact absurd rfl hpe
            | cons a t =>
              have : a = '/' := by
                have := congrArg (fun l => List.getD l 0 ' ') ht1
                simpa using this
              simp [this]
      have hpfxclean : '#' ∉ (if p ≠ [] ∧ p.take 1 ≠ ['/'] then '/' :: p else p)
          ∧ '?' ∉ (if p ≠ [] ∧ p.take 1 ≠ ['/'] then '/' :: p else p) := by
        constructor <;>
        · split
          · intro hm
            rcases List.mem_cons.mp hm with hm | hm
            · exact absurd hm.symm (by decide)
            · first
              | exact hp_clean.1 hm
              | exact hp_clean.2 hm
          · first
            | exact hp_clean.1
            | exact hp_clean.2
      have hpfxtab : ∀ c ∈ (if p ≠ [] ∧ p.take 1 ≠ ['/'] then '/' :: p else p),
          isTabCrLf c = false := by
        intro c hc
        split at hc
        · rcases List.mem_cons.mp hc with rfl | hc
          · decide
          · exact hp_tab c hc
        · exact hp_tab c hc
      have hv : pyUnsplitChars s [] p [] [] =
          s ++ ':' :: '/' :: '/' ::
            (if p ≠ [] ∧ p.take 1 ≠ ['/'] then '/' :: p else p) := by
        unfold pyUnsplitChars
        dsimp only
        rw [if_pos (Or.inr ⟨hsne, huse, hp2⟩)]
        simp [hsne]
      rw [hv]
      have hclean2 : ∀ c ∈ s ++ ':' :: '/' :: '/' ::
          (if p ≠ [] ∧ p.take 1 ≠ ['/'] then '/' :: p else p),
          isTabCrLf c = false := by
        intro c hc
        rcases List.mem_append.mp hc with hc | hc
        · exact hs_tab c hc
        rcases List.mem_cons.mp hc with rfl | hc
        · decide
        rcases List.mem_cons.mp hc with rfl | hc
        · decide
        rcases List.mem_cons.mp hc with rfl | hc
        · decide
        · exact hpfxtab c hc
      have hgood2 : s ++ ':' :: '/' :: '/' ::
            (if p ≠ [] ∧ p.take 1 ≠ ['/'] then '/' :: p else p) = [] ∨
          32 < ((s ++ ':' :: '/' :: '/' ::
            (if p ≠ [] ∧ p.take 1 ≠ ['/'] then '/' :: p else p)).headD ' ').toNat := by
        right
        cases s with
        | nil => exact absurd rfl hsne
        | cons a t =>
          rw [List.cons_append]
          exact alpha_gt32 (by simpa using hshead)
      have hnp : (([] : List Char) ++
            (if p ≠ [] ∧ p.take 1 ≠ ['/'] then '/' :: p else p)).takeWhile notDelim
              = []
          ∧ (([] : List Char) ++
            (if p ≠ [] ∧ p.take 1 ≠ ['/'] then '/' :: p else p)).dropWhile notDelim
              = (if p ≠ [] ∧ p.take 1 ≠ ['/'] then '/' :: p else p) :=
        netloc_path_split (by simp) hpfxshape
      have hsp : pySplitChars (s ++ ':' :: '/' :: '/' ::
          (if p ≠ [] ∧ p.take 1 ≠ ['/'] then '/' :: p else p)) =
          ⟨s, [], (if p ≠ [] ∧ p.take 1 ≠ ['/'] then '/' :: p else p), [], []⟩ := by
        rw [pySplitChars_clean hgood2 hclean2]
        rw [splitScheme_of_scheme s _ hsne hsall hshead hslow]
        dsimp only
        rw [splitNetloc_slashslash]
        dsimp only
        rw [List.nil_append] at hnp
        rw [hnp.1, hnp.2, splitFragment_of_not_mem hpfxclean.1]
        dsimp only
        rw [splitQuery_of_not_mem hpfxclean.2]
      unfold stripQFChars
      rw [hsp]
      dsimp only
      unfold pyUnsplitChars
      dsimp only
      rw [show lowerChars [] = ([] : List Char) from rfl]
      rw [if_pos (Or.inr ⟨hsne, huse, hp2'⟩), unsplit_inner_pfx hpfxshape]
      simp [hsne]
    · have hcond : ¬(([] : List Char) ≠ [] ∨
          (s ≠ [] ∧ s ∈ usesNetlocChars ∧ p.take 2 ≠ ['/', '/'])) := by
        intro hc
        rcases hc with hc | hc
        · exact hc rfl
        · exact huse hc.2.1
      have hv : pyUnsplitChars s [] p [] [] = s ++ ':' :: p := by
        unfold pyUnsplitChars
        dsimp only
        rw [if_neg hcond]
        simp [hsne]
      rw [hv]
      have hclean2 : ∀ c ∈ s ++ ':' :: p, isTabCrLf c = false := by
        intro c hc
        rcases List.mem_append.mp hc with hc | hc
        · exact hs_tab c hc
        rcases List.mem_cons.mp hc with rfl | hc
        · decide
        · exact hp_tab c hc
      have hgood2 : s ++ ':' :: p = [] ∨
          32 < ((s ++ ':' :: p).headD ' ').toNat := by
        right
        cases s with
        | nil => exact absurd rfl hsne
        | cons a t =>
          rw [List.cons_append]
          exact alpha_gt32 (by simpa using hshead)
      have hsp : pySplitChars (s ++ ':' :: p) = ⟨s, [], p, [], []⟩ := by
        rw [pySplitChars_clean hgood2 hclean2]
        rw [splitScheme_of_scheme s _ hsne hsall hshead hslow]
        dsimp only
        rw [splitNetloc_not_slashslash hp2]
        dsimp only
        rw [splitFragment_of_not_mem hp_clean.1]
        dsimp only
        rw [splitQuery_of_not_mem hp_clean.2]
      unfold stripQFChars
      rw [hsp]
      dsimp only
      unfold pyUnsplitChars
      dsimp only
      rw [show lowerChars [] = ([] : List Char) from rfl]
      rw [if_neg hcond]
      simp [hsne]

/-- Character-level idempotence of `_strip_query_and_fragment` away from
the empty-netloc/`//`-headed-path corner. -/
theorem stripQF_idem_chars (l : List Char)
    (hsafe : (pySplitChars l).netloc ≠ [] ∨
      (pySplitChars l).path.take 2 ≠ ['/', '/']) :
    stripQFChars (stripQFChars l) = stripQFChars l := by
  have hinv_nd := inv_netloc_delim l
  have hinv_pc := inv_path_clean l
  have hinv_tab := inv_tab_free l
  have hinv_s := inv_scheme l
  have hs : (pySplitChars l).scheme = [] ∨
      ((pySplitChars l).scheme ≠ [] ∧
        (pySplitChars l).scheme.all isSchemeChar = true ∧
        isAsciiAlphaB ((pySplitChars l).scheme.headD ' ') = true ∧
        lowerChars (pySplitChars l).scheme = (pySplitChars l).scheme) := by
    by_cases h : (pySplitChars l).scheme = []
    · exact Or.inl h
    · exact Or.inr ⟨h, (hinv_s h).1, (hinv_s h).2.1, (hinv_s h).2.2⟩
  by_cases hn : (pySplitChars l).netloc = []
  · have hp2 : (pySplitChars l).path.take 2 ≠ ['/', '/'] := by
      rcases hsafe with h | h
      · exact absurd hn h
      · exact h
    have hmain := stripQF_stable_no_netloc (pySplitChars l).scheme
      (pySplitChars l).path hs hinv_pc hp2 (fun hse => inv_bare l hse hn)
      hinv_tab.1 hinv_tab.2.2
    have hstrip : stripQFChars l =
        pyUnsplitChars (pySplitChars l).scheme [] (pySplitChars l).path [] [] := by
      unfold stripQFChars
      dsimp only
      rw [hn]
      rfl
    rw [hstrip]
    exact hmain
  · have hn_ne' : lowerChars (pySplitChars l).netloc ≠ [] := by
      unfold lowerChars
      simp only [ne_eq, List.map_eq_nil_iff]
      exact hn
    have hn_delim' : ∀ c ∈ lowerChars (pySplitChars l).netloc,
        notDelim c = true := by
      intro c hc
      unfold lowerChars at hc
      rcases List.mem_map.mp hc with ⟨c', hc', rfl⟩
      exact lowerChar_notDelim (hinv_nd c' hc')
    have hn_tab' : ∀ c ∈ lowerChars (pySplitChars l).netloc,
        isTabCrLf c = false := by
      intro c hc
      unfold lowerChars at hc
      rcases List.mem_map.mp hc with ⟨c', hc', rfl⟩
      exact lowerChar_not_isTabCrLf (hinv_tab.2.1 c' hc')
    have hmain := stripQF_stable_netloc (pySplitChars l).scheme
      (lowerChars (pySplitChars l).netloc) (pySplitChars l).path hs hn_ne'
      hn_delim' (lowerChars_idem _) hinv_pc (inv_path_head l hn)
      hinv_tab.1 hn_tab' hinv_tab.2.2
    exact hmain

/-- **C9 (amended).** `_clean_target` is idempotent on every URL string;
`_strip_query_and_fragment` is idempotent on every URL except those whose
parse yields an empty netloc together with a path beginning `//` (the
corner the counterexample `"////"` exhibits). -/
theorem C9_url_cleaners_idempotent :
    (∀ u : String, _clean_target (_clean_target u) = _clean_target u)
    ∧ (∀ u : String,
        ((pySplitChars u.data).netloc ≠ [] ∨
          (pySplitChars u.data).path.take 2 ≠ ['/', '/']) →
        _strip_query_and_fragment (_strip_query_and_fragment u) =
          _strip_query_and_fragment u) := by
  constructor
  · intro u
    unfold _clean_target
    by_cases h : "http://".data.isPrefixOf u.data ∨ "https://".data.isPrefixOf u.data
    · rw [if_pos h, if_pos h]
    · rw [if_neg h, if_pos]
      right
      show "https://".data.isPrefixOf ("https://".data ++ _) = true
      rw [List.isPrefixOf_iff_prefix]
      exact List.prefix_append _ _
  · intro u hsafe
    unfold _strip_query_and_fragment
    exact congrArg String.mk (stripQF_idem_chars u.data hsafe)

/-- Counterexample for C9 as stated: stripping `"////"` gives `"//"`,
stripping again gives `""`. -/
theorem C9_strip_not_idempotent_counterexample :
    _strip_query_and_fragment (_strip_query_and_fragment "////") ≠
      _strip_query_and_fragment "////" := by
  decide

/-- Witness for C9 (amended) at a concrete URL with a nonempty netloc. -/
theorem C9_url_cleaners_idempotent_witness :
    _strip_query_and_fragment
        (_strip_query_and_fragment "https://EX.com/a?q#f") =
      _strip_query_and_fragment "https://EX.com/a?q#f" :=
  C9_url_cleaners_idempotent.2 "https://EX.com/a?q#f" (by decide)

end EOPT
